import Mathlib

/-!
Verification development for the oak dependency-injection container.

The definitions below are a shallow embedding of the container code:
the provider registry, the Build pass (depth-first validation with cycle
detection and eager singleton construction), the Resolve and ResolveNamed
operations, and Shutdown.  Go reflect types are modelled as opaque
type-identities (natural numbers); user constructors are modelled
canonically: each invocation allocates a fresh instance identifier and
records the instance identifiers of its arguments, and may fail with a
fixed error code (the cerr field), which is how a Go constructor with a
(T, error) signature can return a non-nil error.  Recursion in the Go
code is unbounded; here it is expressed with an explicit fuel parameter,
with a distinguished outOfFuel result that is proved unreachable for the
fuel values the entry points pass.
-/

set_option autoImplicit false
set_option linter.unusedVariables false

namespace Oak

/-- Type-identity: an opaque comparable key standing for a Go reflect.Type. -/
abbrev Ty := Nat

/-- Lifetime of a provider, from the Lifetime enum of the source. -/
inductive Lifetime where
  | Singleton
  | Transient
deriving DecidableEq, Repr

/-- Provider record, from the provider struct of the source: declared input
type-identities of the constructor (fnType.In), lifetime, optional name,
declared output type (fnType.Out 0).  The remaining fields model the
user-supplied constructor and constructed instance: cerr is the error the
constructor returns on every invocation (none means it always succeeds),
closable says whether the constructed instance implements io.Closer, and
closeErr is the error its Close method returns. -/
structure Provider where
  deps : List Ty
  lifetime : Lifetime
  name : String
  outType : Ty
  cerr : Option Nat
  closable : Bool
  closeErr : Option Nat
deriving DecidableEq, Repr

/-- Canonical constructed instance: a fresh heap identity plus the heap
identities of the constructor arguments it captured. -/
structure Value where
  vid : Nat
  argIds : List Nat
deriving DecidableEq, Repr

/-- Entry of the closer list: the instance identity, the type-identity it
was cached under, and the error its Close method returns. -/
structure Closer where
  vid : Nat
  ty : Ty
  closeErr : Option Nat
deriving DecidableEq, Repr

/-- Allocation and invocation state of the world outside the container:
a fresh-identity counter and the trace of constructor invocations
(provider name, provider output type) in the order they happened. -/
structure World where
  fresh : Nat
  trace : List (String × Ty)
deriving DecidableEq, Repr

/-- Initial world: no allocations, no constructor invocations. -/
def World.init : World := ⟨0, []⟩

/-- Structured errors of the container.  Wrapping with fmt.Errorf("%w") is
modelled by the constructing / resolving constructors; errors.Join by
joined; the sentinels by the nullary constructors.  The outOfFuel value is
an artifact of the fuel-bounded embedding of unbounded Go recursion.
The alreadyShutdown sentinel (ErrAlreadyShutdown) is used by the Shutdown
method in the source even though its declaration file is not present. -/
inductive OakError where
  | notBuilt
  | alreadyBuilt
  | alreadyShutdown
  | emptyName
  | duplicateProvider (t : Ty)
  | duplicateNamed (nm : String)
  | providerNotFound (t : Ty)
  | providerNotFoundNamed (nm : String)
  | namedDepNotFound (nm : String) (t : Ty)
  | circularDependency (chain : List Ty)
  | constructing (t : Ty) (e : OakError)
  | resolving (t : Ty) (e : OakError)
  | userError (code : Nat)
  | notAssignable (nm : String)
  | ctxDeadline
  | joined (errs : List OakError)
  | outOfFuel

/-- Matching an error against the ErrCircularDependency sentinel, as
errors.Is does: unwrap the fmt.Errorf("%w") wrappers. -/
def matchesCircular : OakError → Bool
  | .circularDependency _ => true
  | .constructing _ e => matchesCircular e
  | .resolving _ e => matchesCircular e
  | _ => false

/-- Root user-constructor error of a wrapped error, if any: unwraps the
constructing / resolving layers down to a userError. -/
def userRoot : OakError → Option Nat
  | .userError k => some k
  | .constructing _ e => userRoot e
  | .resolving _ e => userRoot e
  | _ => none

/-- Type-identities mentioned by the wrapping layers of an error,
outermost first. -/
def wrapTypes : OakError → List Ty
  | .constructing t e => t :: wrapTypes e
  | .resolving t e => t :: wrapTypes e
  | _ => []

/-- Result of errors.Join: nil for an empty error list, an aggregate
otherwise. -/
def joinErrs : List OakError → Option OakError
  | [] => none
  | es => some (.joined es)

/-- The container struct of the source: unnamed providers keyed by output
type, named providers keyed by name, the singleton cache, the closer list
(appended in construction order during Build), and the built and shutdown
flags.  Go maps are modelled as association lists (providers, named) or as
functions (singletons); Build iterates the association list in order,
standing for one admissible Go map iteration order. -/
structure Container where
  providers : List (Ty × Provider)
  named : List (String × Provider)
  singletons : Ty → Option Value
  closers : List Closer
  built : Bool
  shutdown : Bool

/-- Empty container, as produced by New. -/
def Container.new : Container :=
  { providers := [], named := [], singletons := fun _ => none,
    closers := [], built := false, shutdown := false }

/-- The register method: rejects registration after Build, duplicate
unnamed providers for a type, and duplicate names.  The reflection shape
checks of the source (constructor must be a function returning T or
(T, error)) are outside the model: a Provider value is well-shaped by
construction. -/
def Container.register (c : Container) (name : String) (p : Provider) :
    Container × Option OakError :=
  if c.built then (c, some .alreadyBuilt)
  else if name = "" then
    match c.providers.lookup p.outType with
    | some _ => (c, some (.duplicateProvider p.outType))
    | none => ({ c with providers := c.providers ++ [(p.outType, p)] }, none)
  else
    match c.named.lookup name with
    | some _ => (c, some (.duplicateNamed name))
    | none => ({ c with named := c.named ++ [(name, p)] }, none)

/-- The Register method. -/
def Container.Register (c : Container) (p : Provider) : Container × Option OakError :=
  c.register "" p

/-- The RegisterNamed method: an empty name is rejected. -/
def Container.RegisterNamed (c : Container) (name : String) (p : Provider) :
    Container × Option OakError :=
  if name = "" then (c, some .emptyName) else c.register name p

/-- Per-type visitation state of the Build pass (buildState in the source). -/
inductive BuildState where
  | unvisited
  | visiting
  | visited
deriving DecidableEq, Repr

mutual

/-- The construct method of the source: resolve each declared input
(singleton inputs from the cache, otherwise recursively construct via the
provider for the input type, wrapping any failure with the input
type-identity), then invoke the constructor.  The method only reads the
provider map and the singleton cache of the container, which are passed
as the ps and sg arguments.  The user constructor is modelled canonically:
it is invoked (recorded in the trace), then either fails with its fixed
cerr error or allocates a fresh instance capturing the argument
identities. -/
def construct : Nat → List (Ty × Provider) → (Ty → Option Value) → Provider → World →
    World × Except OakError Value
  | 0, _, _, _, w => (w, .error .outOfFuel)
  | fuel + 1, ps, sg, p, w =>
    match constructDeps fuel ps sg p.deps w with
    | (w1, .error e) => (w1, .error e)
    | (w1, .ok args) =>
      let w2 : World := ⟨w1.fresh, w1.trace ++ [(p.name, p.outType)]⟩
      match p.cerr with
      | some k => (w2, .error (.userError k))
      | none => (⟨w1.fresh + 1, w2.trace⟩, .ok ⟨w1.fresh, args.map Value.vid⟩)
termination_by fuel ps sg p w => (fuel, 0)

/-- The argument-resolution loop of construct. -/
def constructDeps : Nat → List (Ty × Provider) → (Ty → Option Value) → List Ty → World →
    World × Except OakError (List Value)
  | _, _, _, [], w => (w, .ok [])
  | fuel, ps, sg, d :: ds, w =>
    match sg d with
    | some v =>
      match constructDeps fuel ps sg ds w with
      | (w1, .error e) => (w1, .error e)
      | (w1, .ok vs) => (w1, .ok (v :: vs))
    | none =>
      match ps.lookup d with
      | none => (w, .error (.providerNotFound d))
      | some pd =>
        match construct fuel ps sg pd w with
        | (w1, .error e) => (w1, .error (.resolving d e))
        | (w1, .ok v) =>
          match constructDeps fuel ps sg ds w1 with
          | (w2, .error e) => (w2, .error e)
          | (w2, .ok vs) => (w2, .ok (v :: vs))
termination_by fuel ps sg ds w => (fuel, ds.length + 1)

end

/-- Mutable state threaded through the Build pass: the container (whose
singleton cache and closer list the pass fills in), the visitation-state
map, and the world. -/
structure BState where
  c : Container
  st : Ty → BuildState
  w : World

mutual

/-- The buildResolve method of the source: depth-first visit of one
type-identity.  A visiting mark means a cycle (reported with the chain
stack ++ [t], as circularError builds it); a visited mark returns at
once; otherwise the provider is looked up, marked visiting, pushed on the
stack, its declared inputs are visited recursively, and if it is a
Singleton its constructor is invoked, the instance cached, and a closable
instance appended to the closer list. -/
def buildResolve : Nat → Ty → List Ty → BState → BState × Option OakError
  | 0, _, _, s => (s, some .outOfFuel)
  | fuel + 1, t, stack, s =>
    match s.st t with
    | .visiting => (s, some (.circularDependency (stack ++ [t])))
    | .visited => (s, none)
    | .unvisited =>
      match s.c.providers.lookup t with
      | none => (s, some (.providerNotFound t))
      | some p =>
        let s1 : BState := { s with st := fun x => if x = t then .visiting else s.st x }
        match buildDeps fuel p.deps (stack ++ [t]) s1 with
        | (s2, some e) => (s2, some e)
        | (s2, none) =>
          if p.lifetime = .Singleton then
            match construct (s2.c.providers.length + 1) s2.c.providers s2.c.singletons p s2.w with
            | (w3, .error e) => ({ s2 with w := w3 }, some (.constructing t e))
            | (w3, .ok v) =>
              let c3 : Container := { s2.c with
                singletons := fun x => if x = t then some v else s2.c.singletons x,
                closers := if p.closable then s2.c.closers ++ [⟨v.vid, t, p.closeErr⟩]
                           else s2.c.closers }
              ({ c := c3, st := fun x => if x = t then .visited else s2.st x, w := w3 }, none)
          else
            ({ s2 with st := fun x => if x = t then .visited else s2.st x }, none)
termination_by fuel t stack s => (fuel, 0)

/-- The dependency loop of buildResolve. -/
def buildDeps : Nat → List Ty → List Ty → BState → BState × Option OakError
  | _, [], _, s => (s, none)
  | fuel, d :: ds, stack, s =>
    match buildResolve fuel d stack s with
    | (s1, some e) => (s1, some e)
    | (s1, none) => buildDeps fuel ds stack s1
termination_by fuel ds stack s => (fuel, ds.length + 1)

end

/-- The root loop of Build over all registered unnamed type-identities. -/
def buildAll : Nat → List Ty → BState → BState × Option OakError
  | _, [], s => (s, none)
  | fuel, t :: ts, s =>
    match buildResolve fuel t [] s with
    | (s1, some e) => (s1, some e)
    | (s1, none) => buildAll fuel ts s1

/-- The validateNamedProvider loop of Build: every declared input of every
named provider must have an unnamed provider. -/
def validateNamed (c : Container) : List (String × Provider) → Option OakError
  | [] => none
  | (nm, p) :: rest =>
    match p.deps.find? (fun d => (c.providers.lookup d).isNone) with
    | some d => some (.namedDepNotFound nm d)
    | none => validateNamed c rest

/-- The Build method of the source: reject if already built, visit every
unnamed provider depth-first (instantiating singletons), validate named
providers, and only then set the built flag.  On error the container keeps
whatever the pass already cached (the Go code mutates in place and does
not roll back). -/
def Container.Build (c : Container) (w : World) : Container × World × Option OakError :=
  if c.built then (c, w, some .alreadyBuilt)
  else
    match buildAll (c.providers.length + 1) (c.providers.map Prod.fst)
        ⟨c, fun _ => .unvisited, w⟩ with
    | (s, some e) => (s.c, s.w, some e)
    | (s, none) =>
      match validateNamed s.c s.c.named with
      | some e => (s.c, s.w, some e)
      | none => ({ s.c with built := true }, s.w, none)

/-- The Resolve method of the source: requires built; serves a cached
singleton instance if present, otherwise constructs through the unnamed
provider for the type. -/
def Container.Resolve (c : Container) (t : Ty) (w : World) : World × Except OakError Value :=
  if c.built = false then (w, .error .notBuilt)
  else
    match c.singletons t with
    | some v => (w, .ok v)
    | none =>
      match c.providers.lookup t with
      | none => (w, .error (.providerNotFound t))
      | some p => construct (c.providers.length + 1) c.providers c.singletons p w

/-- The ResolveNamed method of the source: requires built; looks the
provider up by name, checks that its declared output type is assignable to
the requested type (assignability of reflect types is modelled as equality
of type-identities), and always constructs a fresh instance. -/
def Container.ResolveNamed (c : Container) (nm : String) (t : Ty) (w : World) :
    World × Except OakError Value :=
  if c.built = false then (w, .error .notBuilt)
  else
    match c.named.lookup nm with
    | none => (w, .error (.providerNotFoundNamed nm))
    | some p =>
      if p.outType ≠ t then (w, .error (.notAssignable nm))
      else construct (c.providers.length + 1) c.providers c.singletons p w

/-- Whether the context deadline has expired: each Close invocation is one
time step, and a deadline of k means ctx.Err() is non-nil from step k on. -/
def ctxExpired : Option Nat → Nat → Bool
  | none, _ => false
  | some k, time => k ≤ time

/-- The closer loop of Shutdown, already given the reversed closer list:
before each closer the context deadline is checked; if expired, the
context error is recorded and the remaining closers are skipped; otherwise
the closer is invoked (recorded in the returned event list) and a failure
is collected.  Returns the collected errors in append order and the list
of closers actually invoked. -/
def closeLoop : List Closer → Option Nat → Nat → List OakError × List Closer
  | [], _, _ => ([], [])
  | cl :: rest, dl, time =>
    if ctxExpired dl time then ([.ctxDeadline], [])
    else
      let r := closeLoop rest dl (time + 1)
      match cl.closeErr with
      | some k => (.userError k :: r.1, cl :: r.2)
      | none => (r.1, cl :: r.2)

/-- The Shutdown method of the source: requires built, rejects a second
call, marks the container shut down unconditionally, then walks the closer
list in reverse joining all failures.  Also returns the list of closers
whose Close method was invoked, in invocation order. -/
def Container.Shutdown (c : Container) (dl : Option Nat) :
    Container × Option OakError × List Closer :=
  if c.built = false then (c, some .notBuilt, [])
  else if c.shutdown then (c, some .alreadyShutdown, [])
  else
    let r := closeLoop c.closers.reverse dl 0
    ({ c with shutdown := true }, joinErrs r.1, r.2)

/-!  Trace bookkeeping: counting constructor invocations by output type and
the happened-before relation between two invocations. -/
/-- Number of constructor invocations in the trace whose provider output
type is t. -/
def countTy (tr : List (String × Ty)) (t : Ty) : Nat :=
  tr.countP (fun e => e.2 == t)

/-- Some invocation of a provider with output type d happens strictly
before some invocation of a provider with output type t. -/
def builtBefore (tr : List (String × Ty)) (d t : Ty) : Prop :=
  ∃ i j : Nat, i < j ∧ (∃ ed : String × Ty, tr[i]? = some ed ∧ ed.2 = d) ∧
    (∃ et : String × Ty, tr[j]? = some et ∧ et.2 = t)

/-!  The dependency graph of the unnamed providers. -/
/-- Edge of the dependency graph of a provider map: the provider
registered for a declares b as one of its constructor inputs. -/
def depEdge (ps : List (Ty × Provider)) (a b : Ty) : Prop :=
  ∃ p, ps.lookup a = some p ∧ b ∈ p.deps

/-- Consecutive members of the list are dependency-graph edges. -/
def depChain (ps : List (Ty × Provider)) : List Ty → Prop
  | [] => True
  | [_] => True
  | a :: b :: r => depEdge ps a b ∧ depChain ps (b :: r)

/-- A dependency cycle: a nonempty chain whose last member has an edge
back to its first member. -/
def IsDepCycle (ps : List (Ty × Provider)) (l : List Ty) : Prop :=
  l ≠ [] ∧ depChain ps l ∧ depEdge ps (l.getLastD 0) (l.headD 0)

/-- The dependency graph has no cycle. -/
def Acyclic (ps : List (Ty × Provider)) : Prop := ∀ l, ¬ IsDepCycle ps l

/-!  Characterization of the Shutdown closer loop. -/
/-- Number of closers the loop actually invokes, out of n pending ones,
given the deadline and the current time (List.take clamps, so a value
larger than n means all of them). -/
def shutCut (dl : Option Nat) (time n : Nat) : Nat :=
  match dl with
  | none => n
  | some k => k - time

/-- Whether the loop observes the deadline expired before one of the n
pending closers. -/
def shutHit (dl : Option Nat) (time n : Nat) : Bool :=
  match dl with
  | none => false
  | some k => decide (k - time < n)

/-!  Well-formedness of a freshly registered container, the invariants of
the Build depth-first pass, and the frame facts it preserves. -/
/-- A container as produced by New and a sequence of successful register
calls: provider keys are distinct and each equals its provider's declared
output type, the singleton cache and closer list are empty, and the
container is not yet built. -/
structure WfReg (c : Container) : Prop where
  nodupKeys : (c.providers.map Prod.fst).Nodup
  keyed : ∀ pr ∈ c.providers, pr.2.outType = pr.1
  emptyCache : c.singletons = fun _ => none
  emptyClosers : c.closers = []
  notBuiltYet : c.built = false

/-- Progress rank of a visitation state: states only ever advance. -/
def bsRank : BuildState → Nat
  | .unvisited => 0
  | .visiting => 1
  | .visited => 2

/-- Frame and monotonicity facts relating the Build state before and after
one step of the pass: the registries and flags are untouched, the closer
list and trace only grow, visitation states only advance, and cached
singletons stay cached. -/
structure BStep (s s' : BState) : Prop where
  provEq : s'.c.providers = s.c.providers
  namedEq : s'.c.named = s.c.named
  builtEq : s'.c.built = s.c.built
  shutEq : s'.c.shutdown = s.c.shutdown
  closersExt : ∃ ext, s'.c.closers = s.c.closers ++ ext
  traceExt : ∃ ext, s'.w.trace = s.w.trace ++ ext
  stMono : ∀ x, bsRank (s.st x) ≤ bsRank (s'.st x)
  cacheMono : ∀ x v, s.c.singletons x = some v → s'.c.singletons x = some v

/-- Number of keys not yet visited, the fuel measure of the pass. -/
def unvisitedCount (ks : List Ty) (st : Ty → BuildState) : Nat :=
  (ks.filter (fun t => st t == BuildState.unvisited)).length

/-!  Shape of construct errors: the wrapping layers spell out the chain of
dependency types that were being constructed when a user constructor
failed. -/
/-- A path through the dependency graph: starting from provider p, each
listed type is a declared input of the previous provider, looked up in the
provider map, ending at provider q. -/
inductive DepPath (ps : List (Ty × Provider)) : Provider → List Ty → Provider → Prop where
  | nil (p : Provider) : DepPath ps p [] p
  | cons (p : Provider) (d : Ty) (pd : Provider) (ds : List Ty) (q : Provider) :
      d ∈ p.deps → ps.lookup d = some pd → DepPath ps pd ds q → DepPath ps p (d :: ds) q

/-- The error e, when rooted in a user-constructor error, wraps exactly a
dependency path from p to the provider whose constructor failed. -/
def ErrShapeOk (ps : List (Ty × Provider)) (p : Provider) (e : OakError) : Prop :=
  ∀ k, userRoot e = some k →
    ∃ ds q, wrapTypes e = ds ∧ DepPath ps p ds q ∧ q.cerr = some k

/-!  Behaviour of construct when every declared input lies in the visited
list L maintained by the Build pass: singleton inputs are served from the
cache, so only transient providers are invoked below the top call, and the
only possible failure is a user-constructor error. -/
/-- Every trace entry in ext is an invocation of a registered transient
provider. -/
def TransientEntries (ps : List (Ty × Provider)) (ext : List (String × Ty)) : Prop :=
  ∀ e ∈ ext, ∃ pe, ps.lookup e.2 = some pe ∧ pe.lifetime = .Transient

/-!  Invariants of the Build depth-first pass. -/
/-- Invariant of the pass over the mutable pieces it touches: L is the
list of visited type-identities in visitation (hence construction) order.
Every visited type has a provider whose declared inputs were visited
earlier; visited singletons are cached, and only visited types are cached;
the trace holds exactly one invocation per visited singleton type and none
per unvisited one, with dependencies constructed before their dependents;
and the closer list is an ordered subsequence of the trace. -/
structure DfsInv (ps : List (Ty × Provider)) (sg : Ty → Option Value)
    (closers : List Closer) (st : Ty → BuildState) (tr : List (String × Ty))
    (L : List Ty) : Prop where
  nodupL : L.Nodup
  visitedIff : ∀ t, st t = .visited ↔ t ∈ L
  keysOk : ∀ t ∈ L, (ps.lookup t).isSome
  orderOk : ∀ t ∈ L, ∀ p, ps.lookup t = some p →
      ∀ d ∈ p.deps, d ∈ L ∧ L.indexOf d < L.indexOf t
  cachedOk : ∀ t ∈ L, ∀ p, ps.lookup t = some p → p.lifetime = .Singleton → (sg t).isSome
  cacheDom : ∀ t, (sg t).isSome → t ∈ L
  countOk : ∀ t p, ps.lookup t = some p → p.lifetime = .Singleton →
      countTy tr t = (if t ∈ L then 1 else 0)
  edgeOrderOk : ∀ t ∈ L, ∀ p, ps.lookup t = some p → p.lifetime = .Singleton →
      ∀ d ∈ p.deps, ∀ pd, ps.lookup d = some pd → pd.lifetime = .Singleton →
      builtBefore tr d t
  closersOk : List.Sublist (closers.map Closer.ty) (tr.map Prod.snd)

/-- Invariant of the explicit path stack: a type is marked visiting
exactly when it is on the stack, and consecutive stack entries are
dependency edges. -/
structure StackOk (ps : List (Ty × Provider)) (st : Ty → BuildState)
    (stack : List Ty) : Prop where
  visitingIff : ∀ x, st x = .visiting ↔ x ∈ stack
  chainStack : depChain ps stack

/-- Shape of every error the pass can raise while visiting t: a circular
dependency reported with a chain containing a whole cycle of the graph, a
missing provider that some provider (or the visited type itself) depends
on, or a singleton whose construction failed on a user-constructor error,
wrapped along the dependency path that reached it. -/
def ErrCase (ps : List (Ty × Provider)) (t : Ty) (e : OakError) : Prop :=
  (∃ chain cyc, e = .circularDependency chain ∧ IsDepCycle ps cyc ∧ ∀ x ∈ cyc, x ∈ chain)
  ∨ (∃ d, e = .providerNotFound d ∧ ps.lookup d = none ∧
      (d = t ∨ ∃ t' p', ps.lookup t' = some p' ∧ d ∈ p'.deps))
  ∨ (∃ tS pS e', e = .constructing tS e' ∧ ps.lookup tS = some pS ∧
      pS.lifetime = .Singleton ∧
      ∃ k ds q, userRoot e' = some k ∧ wrapTypes e' = ds ∧
        DepPath ps pS ds q ∧ q.cerr = some k)

/-- Canonical error shape for the dependency loop: as ErrCase, but a
missing provider is always missing as somebody's declared input. -/
def ErrCaseC (ps : List (Ty × Provider)) (e : OakError) : Prop :=
  (∃ chain cyc, e = .circularDependency chain ∧ IsDepCycle ps cyc ∧ ∀ x ∈ cyc, x ∈ chain)
  ∨ (∃ d, e = .providerNotFound d ∧ ps.lookup d = none ∧
      (∃ t' p', ps.lookup t' = some p' ∧ d ∈ p'.deps))
  ∨ (∃ tS pS e', e = .constructing tS e' ∧ ps.lookup tS = some pS ∧
      pS.lifetime = .Singleton ∧
      ∃ k ds q, userRoot e' = some k ∧ wrapTypes e' = ds ∧
        DepPath ps pS ds q ∧ q.cerr = some k)

/-- Specification of one buildResolve call at a given fuel. -/
def RSpec (ps : List (Ty × Provider)) (fuel : Nat) : Prop :=
  ∀ (t : Ty) (stack : List Ty) (s : BState) (L : List Ty),
    s.c.providers = ps →
    DfsInv ps s.c.singletons s.c.closers s.st s.w.trace L →
    StackOk ps s.st stack →
    (stack = [] ∨ depEdge ps (stack.getLastD 0) t) →
    unvisitedCount (ps.map Prod.fst) s.st + 1 ≤ fuel →
    BStep s (buildResolve fuel t stack s).1 ∧
    (((buildResolve fuel t stack s).2 = none ∧
      (buildResolve fuel t stack s).1.st t = .visited ∧
      (∀ x, (buildResolve fuel t stack s).1.st x = .visiting ↔ s.st x = .visiting) ∧
      ∃ L', (∃ ext, L' = L ++ ext) ∧
        DfsInv ps (buildResolve fuel t stack s).1.c.singletons
          (buildResolve fuel t stack s).1.c.closers (buildResolve fuel t stack s).1.st
          (buildResolve fuel t stack s).1.w.trace L') ∨
     (∃ e, (buildResolve fuel t stack s).2 = some e ∧ ErrCase ps t e))

/-- Specification of one buildDeps call at a given fuel. -/
def DSpec (ps : List (Ty × Provider)) (fuel : Nat) : Prop :=
  ∀ (ds stack : List Ty) (s : BState) (L : List Ty) (tcur : Ty) (p : Provider),
    s.c.providers = ps →
    DfsInv ps s.c.singletons s.c.closers s.st s.w.trace L →
    StackOk ps s.st stack →
    ps.lookup tcur = some p →
    (∀ d ∈ ds, d ∈ p.deps) →
    stack.getLastD 0 = tcur → stack ≠ [] →
    unvisitedCount (ps.map Prod.fst) s.st + 1 ≤ fuel →
    BStep s (buildDeps fuel ds stack s).1 ∧
    (((buildDeps fuel ds stack s).2 = none ∧
      (∀ d ∈ ds, (buildDeps fuel ds stack s).1.st d = .visited) ∧
      (∀ x, (buildDeps fuel ds stack s).1.st x = .visiting ↔ s.st x = .visiting) ∧
      ∃ L', (∃ ext, L' = L ++ ext) ∧
        DfsInv ps (buildDeps fuel ds stack s).1.c.singletons
          (buildDeps fuel ds stack s).1.c.closers (buildDeps fuel ds stack s).1.st
          (buildDeps fuel ds stack s).1.w.trace L') ∨
     (∃ e, (buildDeps fuel ds stack s).2 = some e ∧ ErrCaseC ps e))

/-- Well-formed two-singleton chain used to witness the Build claims. -/
def chainW : Container :=
  { Container.new with
    providers :=
      [(0, ⟨[1], .Singleton, "", 0, none, true, none⟩),
       (1, ⟨[], .Singleton, "", 1, none, true, none⟩)] }

/-- Self-cycle container used to witness the cycle-detection claim. -/
def cycW : Container :=
  { Container.new with
    providers := [(3, ⟨[3], .Singleton, "", 3, none, false, none⟩)] }

/-- Singleton-over-failing-transient container used to witness the
error-chain claim: the Build error reads constructing 8: resolving 9:
user error. -/
def failW : Container :=
  { Container.new with
    providers :=
      [(8, ⟨[9], .Singleton, "", 8, none, false, none⟩),
       (9, ⟨[], .Transient, "", 9, some 4, false, none⟩)] }

/-- Built container with one failing closer, witnessing the Shutdown
aggregate claim. -/
def shutW2 : Container :=
  { Container.new with built := true, closers := [⟨0, 0, some 3⟩, ⟨1, 1, none⟩] }

/-!  Claims C4 and C9. -/
/-- Registration set with one Singleton provider depending on one
Transient provider, the scenario of the captured-transient claim. -/
def c4container (s tr : Ty) : Container :=
  { Container.new with
    providers :=
      [(s, ⟨[tr], .Singleton, "", s, none, false, none⟩),
       (tr, ⟨[], .Transient, "", tr, none, false, none⟩)] }

/-- Registration set in which the first singleton (type 0, closable)
builds fine and the second (type 1) fails, demonstrating that Build is not
atomic. -/
def abW : Container :=
  { Container.new with
    providers :=
      [(0, ⟨[], .Singleton, "", 0, none, true, none⟩),
       (1, ⟨[], .Singleton, "", 1, some 5, false, none⟩)] }

/-- Built container with one closer whose Close fails, used to witness the
Shutdown claims: the first Shutdown is cut by an already-expired deadline,
and the second is still rejected. -/
def shutW : Container :=
  { Container.new with built := true, closers := [⟨0, 0, some 3⟩] }

/-- Built container with one cached singleton (which is also a tracked
closer), used to witness the Shutdown frame claim. -/
def frameW : Container :=
  { Container.new with
    built := true,
    singletons := fun t => if t = 4 then some ⟨7, []⟩ else none,
    closers := [⟨7, 4, none⟩] }

/-- Built container with one named provider (declared Singleton) that
depends on one cached singleton, used to witness the named-provider
freshness claim. -/
def namedW : Container :=
  { Container.new with
    built := true,
    named := [("n", ⟨[4], .Singleton, "n", 9, none, false, none⟩)],
    singletons := fun d => if d = 4 then some ⟨5, []⟩ else none }

/-!  Counterexamples to claims C1, C2 and C3 as frozen. -/
/-- Registration set with a single acyclic, dependency-satisfied singleton
provider whose constructor fails. -/
def c1cex : Container :=
  { Container.new with providers := [(0, ⟨[], .Singleton, "", 0, some 7, false, none⟩)] }

/-- Registration set containing a self-cycle at type 1, but whose first
provider in iteration order has a missing dependency. -/
def c2cex : Container :=
  { Container.new with
    providers :=
      [(0, ⟨[5], .Singleton, "", 0, none, false, none⟩),
       (1, ⟨[1], .Singleton, "", 1, none, false, none⟩)] }

/-- Registration set with a single transient provider whose constructor
fails; Build succeeds because transients are only validated. -/
def c3cex : Container :=
  { Container.new with providers := [(0, ⟨[], .Transient, "", 0, some 9, false, none⟩)] }

/-!  Association-list facts used throughout. -/
theorem lookup_mem {α β : Type} [BEq α] [LawfulBEq α] :
    ∀ {l : List (α × β)} {k : α} {v : β}, l.lookup k = some v → (k, v) ∈ l := by
  intro l
  induction l with
  | nil => intro k v h; simp [List.lookup] at h
  | cons a l ih =>
    intro k v h
    obtain ⟨a1, a2⟩ := a
    rw [List.lookup] at h
    by_cases hk : (k == a1) = true
    · rw [hk] at h
      simp at h
      have hk' : k = a1 := eq_of_beq hk
      subst hk'
      subst h
      exact List.mem_cons_self _ _
    · rw [Bool.not_eq_true] at hk
      rw [hk] at h
      simp at h
      exact List.mem_cons_of_mem _ (ih h)

theorem lookup_eq_some_of_mem {α β : Type} [BEq α] [LawfulBEq α] :
    ∀ {l : List (α × β)} {k : α} {v : β},
      (l.map Prod.fst).Nodup → (k, v) ∈ l → l.lookup k = some v := by
  intro l
  induction l with
  | nil => intro k v _ h; simp at h
  | cons a l ih =>
    intro k v hnd hm
    obtain ⟨a1, a2⟩ := a
    rw [List.map_cons, List.nodup_cons] at hnd
    rcases List.mem_cons.mp hm with h | h
    · rw [Prod.mk.injEq] at h
      obtain ⟨h1, h2⟩ := h
      subst h1; subst h2
      simp [List.lookup]
    · have hne : k ≠ a1 := by
        intro he; subst he
        exact hnd.1 (List.mem_map.mpr ⟨(k, v), h, rfl⟩)
      rw [List.lookup]
      have hbf : (k == a1) = false := beq_eq_false_iff_ne.mpr hne
      rw [hbf]
      exact ih hnd.2 h

theorem lookup_isSome_iff {α β : Type} [BEq α] [LawfulBEq α] :
    ∀ {l : List (α × β)} {k : α}, (l.lookup k).isSome ↔ k ∈ l.map Prod.fst := by
  intro l
  induction l with
  | nil => intro k; simp [List.lookup]
  | cons a l ih =>
    intro k
    obtain ⟨a1, a2⟩ := a
    rw [List.lookup]
    by_cases hk : (k == a1) = true
    · have hk' : k = a1 := eq_of_beq hk
      simp [hk, hk']
    · have hne : k ≠ a1 := fun he => hk (by subst he; simp)
      rw [Bool.not_eq_true] at hk
      rw [hk]
      simp [hne, ih]

theorem countTy_append (a b : List (String × Ty)) (t : Ty) :
    countTy (a ++ b) t = countTy a t + countTy b t :=
  List.countP_append _ _ _

theorem builtBefore_append_right {tr : List (String × Ty)} {d t : Ty}
    (ex : List (String × Ty)) (h : builtBefore tr d t) : builtBefore (tr ++ ex) d t := by
  obtain ⟨i, j, hij, ⟨ed, hed, hd⟩, ⟨et, het, ht⟩⟩ := h
  have hi : i < tr.length := by
    by_contra hge
    rw [List.getElem?_eq_none (Nat.le_of_not_lt hge)] at hed
    exact Option.noConfusion hed
  have hj : j < tr.length := by
    by_contra hge
    rw [List.getElem?_eq_none (Nat.le_of_not_lt hge)] at het
    exact Option.noConfusion het
  refine ⟨i, j, hij, ⟨ed, ?_, hd⟩, ⟨et, ?_, ht⟩⟩
  · rw [List.getElem?_append, if_pos hi]; exact hed
  · rw [List.getElem?_append, if_pos hj]; exact het

theorem countTy_pos_exists {tr : List (String × Ty)} {d : Ty} (h : 0 < countTy tr d) :
    ∃ i ed, tr[i]? = some ed ∧ ed.2 = d ∧ i < tr.length := by
  rw [countTy, List.countP_pos_iff] at h
  obtain ⟨e, he, hp⟩ := h
  obtain ⟨i, hi, hget⟩ := List.mem_iff_getElem.mp he
  exact ⟨i, e, by rw [List.getElem?_eq_getElem hi]; exact congrArg some hget,
    by simpa using hp, hi⟩

theorem depChain_rank_le (ps : List (Ty × Provider)) (rank : Ty → Nat)
    (h : ∀ a b, depEdge ps a b → rank b < rank a) :
    ∀ (l : List Ty) (a : Ty), depChain ps (a :: l) → rank ((a :: l).getLastD 0) ≤ rank a := by
  intro l
  induction l with
  | nil => intro a _; simp [List.getLastD]
  | cons b r ih =>
    intro a hch
    rw [depChain] at hch
    have h1 : rank b < rank a := h a b hch.1
    have h2 := ih b hch.2
    calc rank ((a :: b :: r).getLastD 0) = rank ((b :: r).getLastD 0) := by
          simp [List.getLastD]
      _ ≤ rank b := h2
      _ ≤ rank a := Nat.le_of_lt h1

/-- A rank function that strictly decreases along every dependency edge
certifies that the dependency graph is acyclic. -/
theorem ranked_acyclic (ps : List (Ty × Provider)) (rank : Ty → Nat)
    (h : ∀ a b, depEdge ps a b → rank b < rank a) : Acyclic ps := by
  intro l hcyc
  obtain ⟨hne, hch, hback⟩ := hcyc
  cases l with
  | nil => exact hne rfl
  | cons a r =>
    have h1 : rank ((a :: r).getLastD 0) ≤ rank a := depChain_rank_le ps rank h r a hch
    have h2 : rank ((a :: r).headD 0) < rank ((a :: r).getLastD 0) :=
      h _ _ hback
    simp [List.headD] at h2
    exact absurd (Nat.lt_of_lt_of_le h2 h1) (Nat.lt_irrefl _)

theorem closeLoop_eq : ∀ (l : List Closer) (dl : Option Nat) (time : Nat),
    closeLoop l dl time =
      ((l.take (shutCut dl time l.length)).filterMap
          (fun cl => cl.closeErr.map OakError.userError)
        ++ (if shutHit dl time l.length then [.ctxDeadline] else []),
       l.take (shutCut dl time l.length)) := by
  intro l
  induction l with
  | nil =>
    intro dl time
    cases dl <;> simp [closeLoop, shutCut, shutHit]
  | cons cl rest ih =>
    intro dl time
    rw [closeLoop]
    cases dl with
    | none =>
      have hexp : ctxExpired none time = false := rfl
      rw [hexp]
      simp only [Bool.false_eq_true, if_false, ih, shutCut, shutHit]
      cases hce : cl.closeErr <;> simp [List.filterMap_cons, hce]
    | some k =>
      by_cases hk : k ≤ time
      · have hexp : ctxExpired (some k) time = true := by
          simp [ctxExpired, hk]
        rw [hexp]
        have hz : k - time = 0 := Nat.sub_eq_zero_of_le hk
        have hhit : shutHit (some k) time (rest.length + 1) = true := by
          simp [shutHit, hz]
        simp [hhit, shutCut, hz, shutHit]
      · have hexp : ctxExpired (some k) time = false := by
          simp [ctxExpired]
          omega
        rw [hexp]
        simp only [Bool.false_eq_true, if_false, ih]
        have hcut : k - time = (k - (time + 1)) + 1 := by omega
        have hhit : shutHit (some k) time (cl :: rest).length
            = shutHit (some k) (time + 1) rest.length := by
          simp [shutHit]
          omega
        rw [shutCut, shutCut] at *
        rw [hcut, hhit]
        simp only [List.length_cons, List.take_succ_cons]
        cases hce : cl.closeErr <;> simp [List.filterMap_cons, hce, shutHit]

theorem joinErrs_eq_none_iff (es : List OakError) : joinErrs es = none ↔ es = [] := by
  cases es <;> simp [joinErrs]

/-- Full behaviour of Shutdown on a built, not-yet-shut-down container:
the shutdown flag is set and nothing else changes; the closers invoked are
exactly the first shutCut elements of the reversed closer list; the result
joins their individual failures, in order, followed by the deadline error
when the deadline was observed expired. -/
theorem shutdown_spec (c : Container) (dl : Option Nat)
    (hb : c.built = true) (hs : c.shutdown = false) :
    c.Shutdown dl =
      ({ c with shutdown := true },
       joinErrs ((c.closers.reverse.take (shutCut dl 0 c.closers.length)).filterMap
            (fun cl => cl.closeErr.map OakError.userError)
          ++ (if shutHit dl 0 c.closers.length then [.ctxDeadline] else [])),
       c.closers.reverse.take (shutCut dl 0 c.closers.length)) := by
  rw [Container.Shutdown, hb, hs]
  simp only [Bool.true_eq_false, if_false, Bool.false_eq_true]
  rw [closeLoop_eq]
  rw [List.length_reverse]

/-!  Construction with every declared input already in the singleton
cache: the loop serves all arguments from the cache and the constructor
allocates one fresh instance. -/
theorem constructDeps_cached (ps : List (Ty × Provider)) (sg : Ty → Option Value) :
    ∀ (ds : List Ty) (fuel : Nat) (w : World),
      (∀ d ∈ ds, (sg d).isSome) →
      constructDeps fuel ps sg ds w =
        (w, .ok (ds.map (fun d => (sg d).getD ⟨0, []⟩))) := by
  intro ds
  induction ds with
  | nil => intro fuel w h; simp [constructDeps]
  | cons d ds ih =>
    intro fuel w h
    have hd : (sg d).isSome := h d (List.mem_cons_self _ _)
    obtain ⟨v, hv⟩ := Option.isSome_iff_exists.mp hd
    rw [constructDeps, hv, ih fuel w (fun x hx => h x (List.mem_cons_of_mem _ hx))]
    simp [hv]

theorem construct_cached (ps : List (Ty × Provider)) (sg : Ty → Option Value)
    (p : Provider) (w : World) (fuel : Nat)
    (hf : 0 < fuel) (hdeps : ∀ d ∈ p.deps, (sg d).isSome)
    (hc : p.cerr = none) :
    construct fuel ps sg p w =
      (⟨w.fresh + 1, w.trace ++ [(p.name, p.outType)]⟩,
       .ok ⟨w.fresh, p.deps.map (fun d => ((sg d).getD ⟨0, []⟩).vid)⟩) := by
  cases fuel with
  | zero => exact absurd hf (Nat.lt_irrefl 0)
  | succ n =>
    rw [construct, constructDeps_cached ps sg p.deps n w hdeps, hc]
    simp [List.map_map]

theorem bsRank_visited {a : BuildState} (h : 2 ≤ bsRank a) : a = .visited := by
  cases a <;> simp [bsRank] at h ⊢

theorem bsRank_unvisited {a : BuildState} (h : bsRank a ≤ 0) : a = .unvisited := by
  cases a <;> simp [bsRank] at h ⊢

theorem BStep.refl (s : BState) : BStep s s :=
  ⟨Eq.refl _, Eq.refl _, Eq.refl _, Eq.refl _, ⟨[], by simp⟩, ⟨[], by simp⟩,
   fun _ => Nat.le_refl _, fun _ _ h => h⟩

theorem BStep.trans {s1 s2 s3 : BState} (a : BStep s1 s2) (b : BStep s2 s3) :
    BStep s1 s3 := by
  refine ⟨b.provEq.trans a.provEq, b.namedEq.trans a.namedEq, b.builtEq.trans a.builtEq,
    b.shutEq.trans a.shutEq, ?_, ?_, ?_, ?_⟩
  · obtain ⟨e1, h1⟩ := a.closersExt
    obtain ⟨e2, h2⟩ := b.closersExt
    exact ⟨e1 ++ e2, by rw [h2, h1, List.append_assoc]⟩
  · obtain ⟨e1, h1⟩ := a.traceExt
    obtain ⟨e2, h2⟩ := b.traceExt
    exact ⟨e1 ++ e2, by rw [h2, h1, List.append_assoc]⟩
  · exact fun x => Nat.le_trans (a.stMono x) (b.stMono x)
  · exact fun x v h => b.cacheMono x v (a.cacheMono x v h)

theorem unvisitedCount_mono (ks : List Ty) (st st' : Ty → BuildState)
    (h : ∀ x, bsRank (st x) ≤ bsRank (st' x)) :
    unvisitedCount ks st' ≤ unvisitedCount ks st := by
  induction ks with
  | nil => simp [unvisitedCount]
  | cons k ks ih =>
    rw [unvisitedCount, unvisitedCount, List.filter_cons, List.filter_cons]
    by_cases hk : st' k = BuildState.unvisited
    · have hk2 : st k = BuildState.unvisited := by
        apply bsRank_unvisited
        calc bsRank (st k) ≤ bsRank (st' k) := h k
          _ = 0 := by rw [hk]; rfl
      simp only [hk, hk2, beq_self_eq_true, if_true, List.length_cons]
      exact Nat.succ_le_succ ih
    · have hbf : (st' k == BuildState.unvisited) = false := by
        simpa using hk
      rw [hbf]
      simp only [Bool.false_eq_true, if_false]
      by_cases hk2 : st k = BuildState.unvisited
      · simp only [hk2, beq_self_eq_true, if_true, List.length_cons]
        exact Nat.le_succ_of_le ih
      · have hbf2 : (st k == BuildState.unvisited) = false := by simpa using hk2
        rw [hbf2]
        simpa using ih

theorem unvisitedCount_update (ks : List Ty) (st : Ty → BuildState) (t : Ty)
    (r : BuildState) (hr : r ≠ .unvisited) (ht : st t = .unvisited)
    (hnd : ks.Nodup) (hmem : t ∈ ks) :
    unvisitedCount ks (fun x => if x = t then r else st x) + 1 = unvisitedCount ks st := by
  induction ks with
  | nil => simp at hmem
  | cons k ks ih =>
    rw [List.nodup_cons] at hnd
    rw [unvisitedCount, unvisitedCount, List.filter_cons, List.filter_cons]
    by_cases hk : k = t
    · subst hk
      have h1 : ((fun x => if x = k then r else st x) k == BuildState.unvisited) = false := by
        simp only [if_pos rfl]
        simpa using hr
      have h2 : (st k == BuildState.unvisited) = true := by simpa using ht
      rw [h1, h2]
      simp only [Bool.false_eq_true, if_false, if_true, List.length_cons]
      have hsame : ks.filter (fun x => (if x = k then r else st x) == BuildState.unvisited)
          = ks.filter (fun x => st x == BuildState.unvisited) := by
        apply List.filter_congr
        intro x hx
        have hne : x ≠ k := fun he => hnd.1 (he ▸ hx)
        simp [hne]
      rw [hsame]
    · have h1 : ((fun x => if x = t then r else st x) k == BuildState.unvisited)
          = (st k == BuildState.unvisited) := by simp [hk]
      rw [h1]
      have hkt : t ∈ ks := by
        rcases List.mem_cons.mp hmem with h | h
        · exact absurd h.symm hk
        · exact h
      have hih := ih hnd.2 hkt
      rw [unvisitedCount, unvisitedCount] at hih
      by_cases hk2 : st k = BuildState.unvisited
      · have hb : (st k == BuildState.unvisited) = true := by simpa using hk2
        rw [hb]
        simp only [if_true, List.length_cons]
        omega
      · have hb : (st k == BuildState.unvisited) = false := by simpa using hk2
        rw [hb]
        simp only [Bool.false_eq_true, if_false]
        exact hih

theorem construct_err_shape_all (ps : List (Ty × Provider)) (sg : Ty → Option Value) :
    ∀ fuel : Nat,
      (∀ (p : Provider) (w w' : World) (e : OakError),
        construct fuel ps sg p w = (w', .error e) → ErrShapeOk ps p e) ∧
      (∀ (p : Provider) (ds0 : List Ty) (w w' : World) (e : OakError),
        (∀ d ∈ ds0, d ∈ p.deps) →
        constructDeps fuel ps sg ds0 w = (w', .error e) → ErrShapeOk ps p e) := by
  have hdeps_step : ∀ fuel : Nat,
      (∀ (p : Provider) (w w' : World) (e : OakError),
        construct fuel ps sg p w = (w', .error e) → ErrShapeOk ps p e) →
      (∀ (p : Provider) (ds0 : List Ty) (w w' : World) (e : OakError),
        (∀ d ∈ ds0, d ∈ p.deps) →
        constructDeps fuel ps sg ds0 w = (w', .error e) → ErrShapeOk ps p e) := by
    intro fuel hA p ds0
    induction ds0 with
    | nil =>
      intro w w' e hsub hc
      rw [constructDeps] at hc
      cases hc
    | cons d ds ihds =>
      intro w w' e hsub hc k hr
      rw [constructDeps] at hc
      cases hsg : sg d with
      | some v =>
        simp only [hsg] at hc
        cases hrec : constructDeps fuel ps sg ds w with
        | mk w1 r1 =>
          simp only [hrec] at hc
          cases r1 with
          | error e1 =>
            simp at hc
            obtain ⟨hc1, hc2⟩ := hc
            subst hc1; subst hc2
            exact ihds w w1 e1 (fun x hx => hsub x (List.mem_cons_of_mem _ hx)) hrec k hr
          | ok vs => simp at hc
      | none =>
        simp only [hsg] at hc
        cases hlk : ps.lookup d with
        | none =>
          simp only [hlk] at hc
          simp at hc
          obtain ⟨hc1, hc2⟩ := hc
          subst hc2
          simp [userRoot] at hr
        | some pd =>
          simp only [hlk] at hc
          cases hcon : construct fuel ps sg pd w with
          | mk w1 r1 =>
            simp only [hcon] at hc
            cases r1 with
            | error e1 =>
              simp at hc
              obtain ⟨hc1, hc2⟩ := hc
              subst hc1; subst hc2
              rw [userRoot] at hr
              obtain ⟨ds1, q, hw, hp, hq⟩ := hA pd w w1 e1 hcon k hr
              refine ⟨d :: ds1, q, ?_, ?_, hq⟩
              · rw [wrapTypes, hw]
              · exact DepPath.cons p d pd ds1 q (hsub d (List.mem_cons_self _ _)) hlk hp
            | ok v =>
              cases hrec : constructDeps fuel ps sg ds w1 with
              | mk w2 r2 =>
                simp only [hrec] at hc
                cases r2 with
                | error e2 =>
                  simp at hc
                  obtain ⟨hc1, hc2⟩ := hc
                  subst hc1; subst hc2
                  exact ihds w1 w2 e2 (fun x hx => hsub x (List.mem_cons_of_mem _ hx)) hrec k hr
                | ok vs => simp at hc
  intro fuel
  induction fuel with
  | zero =>
    have hA : ∀ (p : Provider) (w w' : World) (e : OakError),
        construct 0 ps sg p w = (w', .error e) → ErrShapeOk ps p e := by
      intro p w w' e hc k hr
      rw [construct] at hc
      cases hc
      simp [userRoot] at hr
    exact ⟨hA, hdeps_step 0 hA⟩
  | succ n ihn =>
    have hA : ∀ (p : Provider) (w w' : World) (e : OakError),
        construct (n + 1) ps sg p w = (w', .error e) → ErrShapeOk ps p e := by
      intro p w w' e hc k hr
      rw [construct] at hc
      cases hdeps : constructDeps n ps sg p.deps w with
      | mk w1 r1 =>
        simp only [hdeps] at hc
        cases r1 with
        | error e1 =>
          simp at hc
          obtain ⟨hc1, hc2⟩ := hc
          subst hc1; subst hc2
          exact ihn.2 p p.deps w w1 e1 (fun d hd => hd) hdeps k hr
        | ok args =>
          cases hce : p.cerr with
          | some k2 =>
            simp only [hce] at hc
            simp at hc
            obtain ⟨hc1, hc2⟩ := hc
            subst hc2
            rw [userRoot] at hr
            have hk : k2 = k := by simpa using hr
            subst hk
            exact ⟨[], p, rfl, DepPath.nil p, hce⟩
          | none =>
            simp only [hce] at hc
            simp at hc
    exact ⟨hA, hdeps_step (n + 1) hA⟩

theorem construct_inv_all (ps : List (Ty × Provider)) (sg : Ty → Option Value) (L : List Ty)
    (hkeyed : ∀ pr ∈ ps, pr.2.outType = pr.1)
    (hkeys : ∀ t ∈ L, (ps.lookup t).isSome)
    (horder : ∀ t ∈ L, ∀ p, ps.lookup t = some p →
      ∀ d ∈ p.deps, d ∈ L ∧ L.indexOf d < L.indexOf t)
    (hcached : ∀ t ∈ L, ∀ p, ps.lookup t = some p → p.lifetime = .Singleton →
      (sg t).isSome) :
    ∀ fuel : Nat,
      (∀ (p : Provider) (n : Nat) (w : World),
        (∀ d ∈ p.deps, d ∈ L ∧ L.indexOf d < n) → n + 1 ≤ fuel →
        (∃ w' v ext, construct fuel ps sg p w = (w', .ok v) ∧
           w'.trace = w.trace ++ (ext ++ [(p.name, p.outType)]) ∧
           TransientEntries ps ext) ∨
        (∃ w' e, construct fuel ps sg p w = (w', .error e) ∧
           (∃ k, userRoot e = some k) ∧ (∃ ext, w'.trace = w.trace ++ ext))) ∧
      (∀ (ds : List Ty) (n : Nat) (w : World),
        (∀ d ∈ ds, d ∈ L ∧ L.indexOf d < n) → n ≤ fuel →
        (∃ w' vs ext, constructDeps fuel ps sg ds w = (w', .ok vs) ∧
           w'.trace = w.trace ++ ext ∧ TransientEntries ps ext) ∨
        (∃ w' e, constructDeps fuel ps sg ds w = (w', .error e) ∧
           (∃ k, userRoot e = some k) ∧ (∃ ext, w'.trace = w.trace ++ ext))) := by
  have hdeps_step : ∀ fuel : Nat,
      (∀ (p : Provider) (n : Nat) (w : World),
        (∀ d ∈ p.deps, d ∈ L ∧ L.indexOf d < n) → n + 1 ≤ fuel →
        (∃ w' v ext, construct fuel ps sg p w = (w', .ok v) ∧
           w'.trace = w.trace ++ (ext ++ [(p.name, p.outType)]) ∧
           TransientEntries ps ext) ∨
        (∃ w' e, construct fuel ps sg p w = (w', .error e) ∧
           (∃ k, userRoot e = some k) ∧ (∃ ext, w'.trace = w.trace ++ ext))) →
      (∀ (ds : List Ty) (n : Nat) (w : World),
        (∀ d ∈ ds, d ∈ L ∧ L.indexOf d < n) → n ≤ fuel →
        (∃ w' vs ext, constructDeps fuel ps sg ds w = (w', .ok vs) ∧
           w'.trace = w.trace ++ ext ∧ TransientEntries ps ext) ∨
        (∃ w' e, constructDeps fuel ps sg ds w = (w', .error e) ∧
           (∃ k, userRoot e = some k) ∧ (∃ ext, w'.trace = w.trace ++ ext))) := by
    intro fuel hA ds
    induction ds with
    | nil =>
      intro n w hb hf
      left
      exact ⟨w, [], [], by rw [constructDeps], by simp, fun e he => absurd he (List.not_mem_nil e)⟩
    | cons d ds ihds =>
      intro n w hb hf
      have hdL : d ∈ L := (hb d (List.mem_cons_self _ _)).1
      have hdI : L.indexOf d < n := (hb d (List.mem_cons_self _ _)).2
      cases hsg : sg d with
      | some v =>
        rcases ihds n w (fun x hx => hb x (List.mem_cons_of_mem _ hx)) hf with
          ⟨w1, vs, ext, hrec, htr, hte⟩ | ⟨w1, e, hrec, hroot, hext⟩
        · left
          refine ⟨w1, v :: vs, ext, ?_, htr, hte⟩
          rw [constructDeps]
          simp only [hsg, hrec]
        · right
          refine ⟨w1, e, ?_, hroot, hext⟩
          rw [constructDeps]
          simp only [hsg, hrec]
      | none =>
        obtain ⟨pd, hlk⟩ := Option.isSome_iff_exists.mp (hkeys d hdL)
        have hout : pd.outType = d := hkeyed (d, pd) (lookup_mem hlk)
        have htrans : pd.lifetime = .Transient := by
          cases hlt : pd.lifetime with
          | Singleton =>
            have := hcached d hdL pd hlk hlt
            rw [hsg] at this
            cases this
          | Transient => rfl
        have hpdeps : ∀ dd ∈ pd.deps, dd ∈ L ∧ L.indexOf dd < L.indexOf d :=
          horder d hdL pd hlk
        have hfA : L.indexOf d + 1 ≤ fuel := Nat.le_trans (Nat.succ_le_of_lt hdI) hf
        rcases hA pd (L.indexOf d) w hpdeps hfA with
          ⟨w1, v, ext, hcon, htr, hte⟩ | ⟨w1, e, hcon, hroot, hext⟩
        · rcases ihds n w1 (fun x hx => hb x (List.mem_cons_of_mem _ hx)) hf with
            ⟨w2, vs, ext2, hrec, htr2, hte2⟩ | ⟨w2, e2, hrec, hroot2, hext2⟩
          · left
            refine ⟨w2, v :: vs, (ext ++ [(pd.name, pd.outType)]) ++ ext2, ?_, ?_, ?_⟩
            · rw [constructDeps]
              simp only [hsg, hlk, hcon, hrec]
            · rw [htr2, htr, List.append_assoc]
            · intro e he
              rcases List.mem_append.mp he with he1 | he1
              · rcases List.mem_append.mp he1 with he2 | he2
                · exact hte e he2
                · have : e = (pd.name, pd.outType) := List.mem_singleton.mp he2
                  subst this
                  exact ⟨pd, by simp [hout, hlk], htrans⟩
              · exact hte2 e he1
          · right
            refine ⟨w2, e2, ?_, hroot2, ?_⟩
            · rw [constructDeps]
              simp only [hsg, hlk, hcon, hrec]
            · obtain ⟨x2, hx2⟩ := hext2
              refine ⟨ext ++ [(pd.name, pd.outType)] ++ x2, ?_⟩
              rw [hx2, htr, List.append_assoc, List.append_assoc]
        · right
          refine ⟨w1, .resolving d e, ?_, ?_, hext⟩
          · rw [constructDeps]
            simp only [hsg, hlk, hcon]
          · obtain ⟨k, hk⟩ := hroot
            exact ⟨k, by rw [userRoot]; exact hk⟩
  intro fuel
  induction fuel with
  | zero =>
    have hA : ∀ (p : Provider) (n : Nat) (w : World),
        (∀ d ∈ p.deps, d ∈ L ∧ L.indexOf d < n) → n + 1 ≤ 0 →
        (∃ w' v ext, construct 0 ps sg p w = (w', .ok v) ∧
           w'.trace = w.trace ++ (ext ++ [(p.name, p.outType)]) ∧
           TransientEntries ps ext) ∨
        (∃ w' e, construct 0 ps sg p w = (w', .error e) ∧
           (∃ k, userRoot e = some k) ∧ (∃ ext, w'.trace = w.trace ++ ext)) := by
      intro p n w hb hf
      exact absurd hf (Nat.not_succ_le_zero n)
    exact ⟨hA, hdeps_step 0 hA⟩
  | succ m ihn =>
    have hA : ∀ (p : Provider) (n : Nat) (w : World),
        (∀ d ∈ p.deps, d ∈ L ∧ L.indexOf d < n) → n + 1 ≤ m + 1 →
        (∃ w' v ext, construct (m + 1) ps sg p w = (w', .ok v) ∧
           w'.trace = w.trace ++ (ext ++ [(p.name, p.outType)]) ∧
           TransientEntries ps ext) ∨
        (∃ w' e, construct (m + 1) ps sg p w = (w', .error e) ∧
           (∃ k, userRoot e = some k) ∧ (∃ ext, w'.trace = w.trace ++ ext)) := by
      intro p n w hb hf
      have hfB : n ≤ m := Nat.le_of_succ_le_succ hf
      rcases hdeps_step m ihn.1 p.deps n w hb hfB with
        ⟨w1, vs, ext, hrec, htr, hte⟩ | ⟨w1, e, hrec, hroot, hext⟩
      · cases hce : p.cerr with
        | some k =>
          right
          refine ⟨⟨w1.fresh, w1.trace ++ [(p.name, p.outType)]⟩, .userError k, ?_, ?_, ?_⟩
          · rw [construct]
            simp only [hrec, hce]
          · exact ⟨k, rfl⟩
          · exact ⟨ext ++ [(p.name, p.outType)], by simp [htr]⟩
        | none =>
          left
          refine ⟨⟨w1.fresh + 1, w1.trace ++ [(p.name, p.outType)]⟩,
            ⟨w1.fresh, vs.map Value.vid⟩, ext, ?_, ?_, hte⟩
          · rw [construct]
            simp only [hrec, hce]
          · simp [htr]
      · right
        refine ⟨w1, e, ?_, hroot, hext⟩
        rw [construct]
        simp only [hrec]
    exact ⟨hA, hdeps_step (m + 1) hA⟩

theorem depChain_suffix (ps : List (Ty × Provider)) :
    ∀ l1 l2, depChain ps (l1 ++ l2) → depChain ps l2 := by
  intro l1
  induction l1 with
  | nil => intro l2 h; simpa using h
  | cons x l1 ih =>
    intro l2 h
    apply ih
    cases hl : l1 ++ l2 with
    | nil => trivial
    | cons y r =>
      rw [List.cons_append, hl, depChain] at h
      exact h.2

theorem getLastD_append (l1 l2 : List Ty) (h : l2 ≠ []) :
    (l1 ++ l2).getLastD 0 = l2.getLastD 0 := by
  rw [List.getLastD_eq_getLast?, List.getLastD_eq_getLast?,
    List.getLast?_append_of_ne_nil l1 h]

/-- When the pass meets a visiting mark, the stack suffix from that type
onward is a dependency cycle, and every member lies in the reported
chain. -/
theorem stack_cycle (ps : List (Ty × Provider)) (st : Ty → BuildState)
    (stack : List Ty) (t : Ty) (hso : StackOk ps st stack)
    (hedge : stack = [] ∨ depEdge ps (stack.getLastD 0) t)
    (hvis : st t = .visiting) :
    ∃ cyc, IsDepCycle ps cyc ∧ ∀ x ∈ cyc, x ∈ stack ++ [t] := by
  have hmem : t ∈ stack := (hso.visitingIff t).mp hvis
  obtain ⟨pre, post, hsp⟩ := List.append_of_mem hmem
  have hne : stack ≠ [] := by
    rw [hsp]
    simp
  rcases hedge with he | he
  · exact absurd he hne
  refine ⟨t :: post, ⟨by simp, ?_, ?_⟩, ?_⟩
  · exact depChain_suffix ps pre (t :: post) (hsp ▸ hso.chainStack)
  · have hlast : (t :: post).getLastD 0 = stack.getLastD 0 := by
      rw [hsp]
      exact (getLastD_append pre (t :: post) (by simp)).symm
    rw [hlast]
    simpa using he
  · intro x hx
    rw [hsp]
    rcases List.mem_cons.mp hx with h | h
    · subst h
      simp
    · simp [h]

theorem indexOf_append_left {x : Ty} (L ext : List Ty) (hx : x ∈ L) :
    (L ++ ext).indexOf x = L.indexOf x := by
  induction L with
  | nil => simp at hx
  | cons a L ih =>
    by_cases hax : a = x
    · subst hax
      simp [List.indexOf_cons_self]
    · rw [List.cons_append, List.indexOf_cons_ne _ (by simpa using hax),
        List.indexOf_cons_ne _ (by simpa using hax)]
      rcases List.mem_cons.mp hx with h | h
      · exact absurd h.symm hax
      · rw [ih h]

theorem indexOf_append_self {t : Ty} (L : List Ty) (ht : t ∉ L) :
    (L ++ [t]).indexOf t = L.length := by
  induction L with
  | nil => simp [List.indexOf_cons_self]
  | cons a L ih =>
    have hat : a ≠ t := fun he => ht (he ▸ List.mem_cons_self _ _)
    rw [List.cons_append, List.indexOf_cons_ne _ (by simpa using hat), List.length_cons,
      ih (fun hm => ht (List.mem_cons_of_mem _ hm))]

theorem countTy_transient_zero (ps : List (Ty × Provider)) (ext : List (String × Ty))
    (hte : TransientEntries ps ext) (x : Ty) (px : Provider)
    (hlk : ps.lookup x = some px) (hsx : px.lifetime = .Singleton) :
    countTy ext x = 0 := by
  rw [countTy, List.countP_eq_zero]
  intro e he hp
  have hex : e.2 = x := by simpa using hp
  obtain ⟨pe, hpe, hptr⟩ := hte e he
  rw [hex, hlk] at hpe
  cases hpe
  rw [hsx] at hptr
  cases hptr

theorem nodup_subset_length_le {l ks : List Ty} (hnd : l.Nodup) (hsub : ∀ x ∈ l, x ∈ ks) :
    l.length ≤ ks.length :=
  (List.subperm_of_subset hnd hsub).length_le

theorem builtBefore_new (tr ext2 : List (String × Ty)) (d t : Ty) (nm : String)
    (hpos : 0 < countTy tr d) :
    builtBefore (tr ++ (ext2 ++ [(nm, t)])) d t := by
  obtain ⟨i, ed, hget, hed, hlt⟩ := countTy_pos_exists hpos
  refine ⟨i, (tr ++ ext2).length, ?_, ⟨ed, ?_, hed⟩, ⟨(nm, t), ?_, rfl⟩⟩
  · rw [List.length_append]
    exact Nat.lt_of_lt_of_le hlt (Nat.le_add_right _ _)
  · rw [← List.append_assoc, List.getElem?_append, if_pos]
    · rw [List.getElem?_append, if_pos hlt]
      exact hget
    · rw [List.length_append]
      exact Nat.lt_of_lt_of_le hlt (Nat.le_add_right _ _)
  · rw [← List.append_assoc, List.getElem?_concat_length]

/-- Marking a fully-visited transient type as visited extends the visited
list while preserving the pass invariant (nothing else changes). -/
theorem dfsinv_mark_transient (ps : List (Ty × Provider)) (sg : Ty → Option Value)
    (cl : List Closer) (st : Ty → BuildState) (tr : List (String × Ty)) (L : List Ty)
    (inv : DfsInv ps sg cl st tr L) (t : Ty) (p : Provider)
    (hlk : ps.lookup t = some p) (htr : p.lifetime = .Transient)
    (htL : t ∉ L) (hdeps : ∀ d ∈ p.deps, d ∈ L) :
    DfsInv ps sg cl (fun x => if x = t then .visited else st x) tr (L ++ [t]) := by
  refine ⟨?_, ?_, ?_, ?_, ?_, ?_, ?_, ?_, inv.closersOk⟩
  · exact List.Nodup.append inv.nodupL (List.nodup_singleton t)
      (List.disjoint_singleton.mpr htL)
  · intro x
    by_cases hx : x = t
    · subst hx
      simp
    · simp only [if_neg hx]
      rw [inv.visitedIff x]
      simp [hx]
  · intro x hx
    rcases List.mem_append.mp hx with h | h
    · exact inv.keysOk x h
    · rw [List.mem_singleton.mp h]
      exact Option.isSome_iff_exists.mpr ⟨p, hlk⟩
  · intro x hx q hq d hd
    rcases List.mem_append.mp hx with h | h
    · obtain ⟨hdL, hdI⟩ := inv.orderOk x h q hq d hd
      refine ⟨List.mem_append.mpr (Or.inl hdL), ?_⟩
      rw [indexOf_append_left L [t] hdL, indexOf_append_left L [t] h]
      exact hdI
    · have hxt : t = x := (List.mem_singleton.mp h).symm
      subst hxt
      rw [hlk] at hq
      cases hq
      have hdL : d ∈ L := hdeps d hd
      refine ⟨List.mem_append.mpr (Or.inl hdL), ?_⟩
      rw [indexOf_append_left L [t] hdL, indexOf_append_self L htL]
      exact List.indexOf_lt_length.mpr hdL
  · intro x hx q hq hsq
    rcases List.mem_append.mp hx with h | h
    · exact inv.cachedOk x h q hq hsq
    · have hxt : t = x := (List.mem_singleton.mp h).symm
      subst hxt
      rw [hlk] at hq
      cases hq
      rw [htr] at hsq
      cases hsq
  · intro x hx
    exact List.mem_append.mpr (Or.inl (inv.cacheDom x hx))
  · intro x q hq hsq
    rw [inv.countOk x q hq hsq]
    by_cases hx : x = t
    · subst hx
      rw [hlk] at hq
      cases hq
      rw [htr] at hsq
      cases hsq
    · simp [List.mem_append, hx]
  · intro x hx q hq hsq d hd pd hpd hspd
    rcases List.mem_append.mp hx with h | h
    · exact inv.edgeOrderOk x h q hq hsq d hd pd hpd hspd
    · have hxt : t = x := (List.mem_singleton.mp h).symm
      subst hxt
      rw [hlk] at hq
      cases hq
      rw [htr] at hsq
      cases hsq

/-- Constructing and caching a singleton whose declared inputs are all
visited, then marking it visited, preserves the pass invariant: the trace
gains only transient invocations plus the one new singleton invocation,
which lands after all of its singleton dependencies. -/
theorem dfsinv_mark_singleton (ps : List (Ty × Provider)) (sg : Ty → Option Value)
    (cl : List Closer) (st : Ty → BuildState) (tr : List (String × Ty)) (L : List Ty)
    (inv : DfsInv ps sg cl st tr L) (t : Ty) (p : Provider) (v : Value)
    (ext : List (String × Ty)) (cl2 : List Closer)
    (hlk : ps.lookup t = some p) (hsing : p.lifetime = .Singleton)
    (htL : t ∉ L) (hdeps : ∀ d ∈ p.deps, d ∈ L)
    (hte : TransientEntries ps ext)
    (hcl2 : cl2 = cl ∨ cl2 = cl ++ [⟨v.vid, t, p.closeErr⟩]) :
    DfsInv ps (fun x => if x = t then some v else sg x) cl2
      (fun x => if x = t then .visited else st x)
      (tr ++ (ext ++ [(p.name, t)])) (L ++ [t]) := by
  refine ⟨?_, ?_, ?_, ?_, ?_, ?_, ?_, ?_, ?_⟩
  · exact List.Nodup.append inv.nodupL (List.nodup_singleton t)
      (List.disjoint_singleton.mpr htL)
  · intro x
    by_cases hx : x = t
    · subst hx
      simp
    · simp only [if_neg hx]
      rw [inv.visitedIff x]
      simp [hx]
  · intro x hx
    rcases List.mem_append.mp hx with h | h
    · exact inv.keysOk x h
    · rw [List.mem_singleton.mp h]
      exact Option.isSome_iff_exists.mpr ⟨p, hlk⟩
  · intro x hx q hq d hd
    rcases List.mem_append.mp hx with h | h
    · obtain ⟨hdL, hdI⟩ := inv.orderOk x h q hq d hd
      refine ⟨List.mem_append.mpr (Or.inl hdL), ?_⟩
      rw [indexOf_append_left L [t] hdL, indexOf_append_left L [t] h]
      exact hdI
    · have hxt : t = x := (List.mem_singleton.mp h).symm
      subst hxt
      rw [hlk] at hq
      cases hq
      have hdL : d ∈ L := hdeps d hd
      refine ⟨List.mem_append.mpr (Or.inl hdL), ?_⟩
      rw [indexOf_append_left L [t] hdL, indexOf_append_self L htL]
      exact List.indexOf_lt_length.mpr hdL
  · intro x hx q hq hsq
    by_cases hxt : x = t
    · subst hxt
      simp
    · simp only [if_neg hxt]
      rcases List.mem_append.mp hx with h | h
      · exact inv.cachedOk x h q hq hsq
      · exact absurd (List.mem_singleton.mp h) hxt
  · intro x hx
    by_cases hxt : x = t
    · subst hxt
      simp
    · simp only [if_neg hxt] at hx
      exact List.mem_append.mpr (Or.inl (inv.cacheDom x hx))
  · intro x q hq hsq
    rw [countTy_append, countTy_append, inv.countOk x q hq hsq,
      countTy_transient_zero ps ext hte x q hq hsq]
    by_cases hx : x = t
    · subst hx
      have h0 : (x ∈ L) = False := by
        simp [htL]
      rw [hlk] at hq
      cases hq
      simp [htL, countTy]
    · have h1 : countTy [(p.name, t)] x = 0 := by
        simp [countTy, hx]
        intro h
        exact absurd h.symm hx
      rw [h1]
      simp [List.mem_append, hx]
  · intro x hx q hq hsq d hd pd hpd hspd
    rcases List.mem_append.mp hx with h | h
    · exact builtBefore_append_right _ (inv.edgeOrderOk x h q hq hsq d hd pd hpd hspd)
    · have hxt : t = x := (List.mem_singleton.mp h).symm
      subst hxt
      rw [hlk] at hq
      cases hq
      apply builtBefore_new
      rw [inv.countOk d pd hpd hspd, if_pos (hdeps d hd)]
      exact Nat.zero_lt_one
  · rcases hcl2 with h | h
    · subst h
      have h2 : List.Sublist (tr.map Prod.snd)
          ((tr ++ (ext ++ [(p.name, t)])).map Prod.snd) := by
        rw [List.map_append]
        exact List.sublist_append_left _ _
      exact inv.closersOk.trans h2
    · subst h
      rw [List.map_append, List.map_append, List.map_append]
      exact List.Sublist.append inv.closersOk
        (by simp)

theorem errCase_of_errCaseC (ps : List (Ty × Provider)) (t : Ty) (e : OakError)
    (h : ErrCaseC ps e) : ErrCase ps t e := by
  rcases h with h1 | h2 | h3
  · exact Or.inl h1
  · obtain ⟨d, he, hn, hp⟩ := h2
    exact Or.inr (Or.inl ⟨d, he, hn, Or.inr hp⟩)
  · exact Or.inr (Or.inr h3)

theorem depChain_snoc (ps : List (Ty × Provider)) (t : Ty) :
    ∀ l, depChain ps l → (l = [] ∨ depEdge ps (l.getLastD 0) t) →
      depChain ps (l ++ [t]) := by
  intro l
  induction l with
  | nil => intro _ _; trivial
  | cons a l ih =>
    intro hch hedge
    have hedge2 : depEdge ps ((a :: l).getLastD 0) t := by
      rcases hedge with h | h
      · cases h
      · exact h
    cases l with
    | nil =>
      simp only [List.getLastD_cons, List.getLastD_nil] at hedge2
      exact ⟨hedge2, trivial⟩
    | cons b l2 =>
      rw [depChain] at hch
      refine ⟨hch.1, ?_⟩
      apply ih hch.2
      right
      have h3 : (b :: l2).getLastD 0 = (a :: b :: l2).getLastD 0 := by
        rw [List.getLastD_eq_getLast?, List.getLastD_eq_getLast?, List.getLast?_cons_cons]
      rw [h3]
      exact hedge2

theorem dspec_of_rspec (ps : List (Ty × Provider)) (fuel : Nat)
    (hR : RSpec ps fuel) : DSpec ps fuel := by
  intro ds
  induction ds with
  | nil =>
    intro stack s L tcur p hps hinv hstack hlkt hsub hlast hne hfuel
    have hres : buildDeps fuel [] stack s = (s, none) := by rw [buildDeps]
    rw [hres]
    exact ⟨BStep.refl s,
      Or.inl ⟨rfl, by simp, fun x => Iff.rfl, L, ⟨[], by simp⟩, hinv⟩⟩
  | cons d ds ihds =>
    intro stack s L tcur p hps hinv hstack hlkt hsub hlast hne hfuel
    have hedge : stack = [] ∨ depEdge ps (stack.getLastD 0) d :=
      Or.inr (by rw [hlast]; exact ⟨p, hlkt, hsub d (List.mem_cons_self _ _)⟩)
    have hchild := hR d stack s L hps hinv hstack hedge hfuel
    cases hbr : buildResolve fuel d stack s with
    | mk s1 r1 =>
      rw [hbr] at hchild
      obtain ⟨hstep1, hrest1⟩ := hchild
      cases r1 with
      | some e =>
        have hres : buildDeps fuel (d :: ds) stack s = (s1, some e) := by
          rw [buildDeps]; simp only [hbr]
        rw [hres]
        rcases hrest1 with ⟨hnone, _⟩ | ⟨e', he', hec⟩
        · simp at hnone
        · simp only [] at he'
          have hee : e' = e := by
            have : some e = some e' := he'
            exact (Option.some.injEq .. ▸ this).symm
          subst hee
          refine ⟨hstep1, Or.inr ⟨e', rfl, ?_⟩⟩
          rcases hec with h1 | h2 | h3
          · exact Or.inl h1
          · obtain ⟨dd, he, hlk0, hor⟩ := h2
            refine Or.inr (Or.inl ⟨dd, he, hlk0, ?_⟩)
            rcases hor with heq | hpar
            · subst heq
              exact ⟨tcur, p, hlkt, hsub dd (List.mem_cons_self _ _)⟩
            · exact hpar
          · exact Or.inr (Or.inr h3)
      | none =>
        rcases hrest1 with ⟨_, hvis1, hiff1, L1, hLext1, hinv1⟩ | ⟨e, habs, _⟩
        · have hps1 : s1.c.providers = ps := by rw [hstep1.provEq, hps]
          have hstack1 : StackOk ps s1.st stack :=
            ⟨fun x => (hiff1 x).trans (hstack.visitingIff x), hstack.chainStack⟩
          have hfuel1 : unvisitedCount (ps.map Prod.fst) s1.st + 1 ≤ fuel :=
            Nat.le_trans (Nat.succ_le_succ (unvisitedCount_mono _ _ _ hstep1.stMono)) hfuel
          have htail := ihds stack s1 L1 tcur p hps1 hinv1 hstack1 hlkt
            (fun x hx => hsub x (List.mem_cons_of_mem _ hx)) hlast hne hfuel1
          cases hbd : buildDeps fuel ds stack s1 with
          | mk s2 r2 =>
            rw [hbd] at htail
            obtain ⟨hstep2, hrest2⟩ := htail
            have hres : buildDeps fuel (d :: ds) stack s = (s2, r2) := by
              rw [buildDeps]; simp only [hbr, hbd]
            rw [hres]
            refine ⟨hstep1.trans hstep2, ?_⟩
            rcases hrest2 with ⟨hn2, hall2, hiff2, L2, hLext2, hinv2⟩ | ⟨e2, he2, hec2⟩
            · refine Or.inl ⟨hn2, ?_, fun x => (hiff2 x).trans (hiff1 x), L2, ?_, hinv2⟩
              · intro d2 hd2
                rcases List.mem_cons.mp hd2 with h | h
                · subst h
                  apply bsRank_visited
                  have h2 := hstep2.stMono d2
                  rw [hvis1] at h2
                  exact h2
                · exact hall2 d2 h
              · obtain ⟨e1x, he1x⟩ := hLext1
                obtain ⟨e2x, he2x⟩ := hLext2
                exact ⟨e1x ++ e2x, by rw [he2x, he1x, List.append_assoc]⟩
            · exact Or.inr ⟨e2, he2, hec2⟩
        · simp at habs

theorem rspec_zero (ps : List (Ty × Provider)) : RSpec ps 0 := by
  intro t stack s L _ _ _ _ hfuel
  exact absurd hfuel (Nat.not_succ_le_zero _)

theorem rspec_succ (ps : List (Ty × Provider))
    (hnodup : (ps.map Prod.fst).Nodup)
    (hkeyed : ∀ pr ∈ ps, pr.2.outType = pr.1)
    (fuel : Nat) (hD : DSpec ps fuel) : RSpec ps (fuel + 1) := by
  intro t stack s L hps hinv hstack hedge hfuel
  cases hst : s.st t with
  | visiting =>
    have hres : buildResolve (fuel + 1) t stack s
        = (s, some (.circularDependency (stack ++ [t]))) := by
      rw [buildResolve]; simp only [hst]
    rw [hres]
    obtain ⟨cyc, hcyc, hsubc⟩ := stack_cycle ps s.st stack t hstack hedge hst
    exact ⟨BStep.refl s, Or.inr ⟨_, rfl, Or.inl ⟨stack ++ [t], cyc, rfl, hcyc, hsubc⟩⟩⟩
  | visited =>
    have hres : buildResolve (fuel + 1) t stack s = (s, none) := by
      rw [buildResolve]; simp only [hst]
    rw [hres]
    exact ⟨BStep.refl s, Or.inl ⟨rfl, hst, fun x => Iff.rfl, L, ⟨[], by simp⟩, hinv⟩⟩
  | unvisited =>
    cases hlk : List.lookup t ps with
    | none =>
      have hlk2 : List.lookup t s.c.providers = none := by rw [hps]; exact hlk
      have hres : buildResolve (fuel + 1) t stack s = (s, some (.providerNotFound t)) := by
        rw [buildResolve]; simp only [hst, hlk2]
      rw [hres]
      exact ⟨BStep.refl s, Or.inr ⟨_, rfl, Or.inr (Or.inl ⟨t, rfl, hlk, Or.inl rfl⟩)⟩⟩
    | some p =>
      have hlk2 : List.lookup t s.c.providers = some p := by rw [hps]; exact hlk
      have hout : p.outType = t := hkeyed (t, p) (lookup_mem hlk)
      have htmemkeys : t ∈ ps.map Prod.fst := by
        apply lookup_isSome_iff.mp
        rw [hlk]
        rfl
      have htnotL : t ∉ L := by
        intro hmem
        have hv := (hinv.visitedIff t).mpr hmem
        rw [hst] at hv
        cases hv
      have htnotstack : t ∉ stack := by
        intro hmem
        have hv := (hstack.visitingIff t).mpr hmem
        rw [hst] at hv
        cases hv
      have hstep01 : BStep s { s with st := fun x => if x = t then .visiting else s.st x } := by
        refine ⟨rfl, rfl, rfl, rfl, ⟨[], by simp⟩, ⟨[], by simp⟩, ?_, fun _ _ h => h⟩
        intro x
        by_cases hx : x = t
        · subst hx
          rw [hst]
          simp [bsRank]
        · simp [hx]
      have hinv1 : DfsInv ps s.c.singletons s.c.closers
          (fun x => if x = t then .visiting else s.st x) s.w.trace L := by
        refine ⟨hinv.nodupL, ?_, hinv.keysOk, hinv.orderOk, hinv.cachedOk, hinv.cacheDom,
          hinv.countOk, hinv.edgeOrderOk, hinv.closersOk⟩
        intro x
        by_cases hx : x = t
        · subst hx
          simp only [if_pos rfl]
          constructor
          · intro h; cases h
          · intro h; exact absurd h htnotL
        · simp only [if_neg hx]
          exact hinv.visitedIff x
      have hstack1 : StackOk ps (fun x => if x = t then .visiting else s.st x)
          (stack ++ [t]) := by
        refine ⟨?_, depChain_snoc ps t stack hstack.chainStack hedge⟩
        intro x
        by_cases hx : x = t
        · subst hx
          simp
        · simp only [if_neg hx]
          rw [hstack.visitingIff x]
          simp [hx]
      have hcount1 : unvisitedCount (ps.map Prod.fst)
          (fun x => if x = t then .visiting else s.st x) + 1
          = unvisitedCount (ps.map Prod.fst) s.st :=
        unvisitedCount_update (ps.map Prod.fst) s.st t .visiting (by simp) hst hnodup htmemkeys
      have hfuel1 : unvisitedCount (ps.map Prod.fst)
          (fun x => if x = t then .visiting else s.st x) + 1 ≤ fuel := by
        rw [hcount1]
        exact Nat.le_of_succ_le_succ hfuel
      have hlast1 : (stack ++ [t]).getLastD 0 = t := by
        rw [getLastD_append stack [t] (by simp)]
        rfl
      have hDt := hD p.deps (stack ++ [t])
        { s with st := fun x => if x = t then .visiting else s.st x } L t p
        hps hinv1 hstack1 hlk (fun d hd => hd) hlast1 (by simp) hfuel1
      cases hbd : buildDeps fuel p.deps (stack ++ [t])
          { s with st := fun x => if x = t then .visiting else s.st x } with
      | mk s2 r2 =>
        rw [hbd] at hDt
        obtain ⟨hstep12, hrest2⟩ := hDt
        have hstep02 : BStep s s2 := hstep01.trans hstep12
        have hps2 : s2.c.providers = ps := by rw [hstep12.provEq]; exact hps
        cases r2 with
        | some e =>
          have hres : buildResolve (fuel + 1) t stack s = (s2, some e) := by
            rw [buildResolve]
            simp only [hst, hlk2, hbd]
          rw [hres]
          rcases hrest2 with ⟨habs, _⟩ | ⟨e2, he2, hec2⟩
          · simp at habs
          · have hee : e2 = e := by
              simpa using he2.symm
            subst hee
            exact ⟨hstep02, Or.inr ⟨e2, rfl, errCase_of_errCaseC ps t e2 hec2⟩⟩
        | none =>
          rcases hrest2 with ⟨_, hall2, hiff2, L2, hLext2, hinv2⟩ | ⟨e2, habs, _⟩
          · have hst2t : s2.st t = .visiting := by
              rw [hiff2 t]
              simp
            have ht2notL2 : t ∉ L2 := by
              intro hm
              have hv := (hinv2.visitedIff t).mpr hm
              rw [hst2t] at hv
              cases hv
            have hdepsL2 : ∀ d ∈ p.deps, d ∈ L2 := fun d hd =>
              (hinv2.visitedIff d).mp (hall2 d hd)
            cases hlife : p.lifetime with
            | Transient =>
              have hres : buildResolve (fuel + 1) t stack s
                  = ({ s2 with st := fun x => if x = t then .visited else s2.st x }, none) := by
                rw [buildResolve]
                simp only [hst, hlk2, hbd, hlife]
                simp
              rw [hres]
              have hstep23 : BStep s2
                  { s2 with st := fun x => if x = t then .visited else s2.st x } := by
                refine ⟨rfl, rfl, rfl, rfl, ⟨[], by simp⟩, ⟨[], by simp⟩, ?_, fun _ _ h => h⟩
                intro x
                by_cases hx : x = t
                · subst hx
                  rw [hst2t]
                  simp [bsRank]
                · simp [hx]
              refine ⟨hstep02.trans hstep23, Or.inl ⟨rfl, by simp, ?_, L2 ++ [t], ?_, ?_⟩⟩
              · intro x
                by_cases hx : x = t
                · subst hx
                  simp only [if_pos rfl]
                  constructor
                  · intro h; cases h
                  · intro h; rw [hst] at h; cases h
                · simp only [if_neg hx]
                  rw [hiff2 x]
                  simp [hx]
              · obtain ⟨e1x, he1x⟩ := hLext2
                exact ⟨e1x ++ [t], by rw [he1x, List.append_assoc]⟩
              · exact dfsinv_mark_transient ps s2.c.singletons s2.c.closers s2.st
                  s2.w.trace L2 hinv2 t p hlk hlife ht2notL2 hdepsL2
            | Singleton =>
              have hlenL2 : L2.length + 1 ≤ ps.length + 1 := by
                apply Nat.succ_le_succ
                have hsub2 : ∀ x ∈ L2, x ∈ ps.map Prod.fst := by
                  intro x hx
                  exact lookup_isSome_iff.mp (hinv2.keysOk x hx)
                have := nodup_subset_length_le hinv2.nodupL hsub2
                rw [List.length_map] at this
                exact this
              have hbound : ∀ d ∈ p.deps, d ∈ L2 ∧ L2.indexOf d < L2.length := fun d hd =>
                ⟨hdepsL2 d hd, List.indexOf_lt_length.mpr (hdepsL2 d hd)⟩
              have hcui := (construct_inv_all ps s2.c.singletons L2 hkeyed hinv2.keysOk
                hinv2.orderOk hinv2.cachedOk (ps.length + 1)).1 p L2.length s2.w hbound hlenL2
              cases hcon : construct (s2.c.providers.length + 1) s2.c.providers
                  s2.c.singletons p s2.w with
              | mk w3 r3 =>
                have hcon2 : construct (ps.length + 1) ps s2.c.singletons p s2.w = (w3, r3) := by
                  rw [← hps2]
                  exact hcon
                rcases hcui with ⟨w', v, ext, hcc, htr, hte⟩ | ⟨w', e, hcc, hroot, hext⟩
                · rw [hcon2] at hcc
                  have hw : w3 = w' := congrArg Prod.fst hcc
                  have hr3 : r3 = .ok v := congrArg Prod.snd hcc
                  subst hw
                  subst hr3
                  have hres : buildResolve (fuel + 1) t stack s
                      = (⟨{ s2.c with
                            singletons := fun x => if x = t then some v else s2.c.singletons x,
                            closers := if p.closable then
                                s2.c.closers ++ [⟨v.vid, t, p.closeErr⟩]
                              else s2.c.closers },
                          fun x => if x = t then .visited else s2.st x, w3⟩, none) := by
                    rw [buildResolve]
                    simp only [hst, hlk2, hbd, hlife, hcon]
                    simp
                  rw [hres]
                  have hsgt : s2.c.singletons t = none := by
                    cases hsgt2 : s2.c.singletons t with
                    | none => rfl
                    | some v0 =>
                      have : t ∈ L2 := hinv2.cacheDom t (by rw [hsgt2]; rfl)
                      exact absurd this ht2notL2
                  have hstep23 : BStep s2
                      ⟨{ s2.c with
                          singletons := fun x => if x = t then some v else s2.c.singletons x,
                          closers := if p.closable then
                              s2.c.closers ++ [⟨v.vid, t, p.closeErr⟩]
                            else s2.c.closers },
                        fun x => if x = t then .visited else s2.st x, w3⟩ := by
                    refine ⟨rfl, rfl, rfl, rfl, ?_, ?_, ?_, ?_⟩
                    · by_cases hcl : p.closable
                      · exact ⟨[⟨v.vid, t, p.closeErr⟩], by simp [hcl]⟩
                      · exact ⟨[], by simp [hcl]⟩
                    · exact ⟨ext ++ [(p.name, p.outType)], htr⟩
                    · intro x
                      by_cases hx : x = t
                      · subst hx
                        rw [hst2t]
                        simp [bsRank]
                      · simp [hx]
                    · intro x v0 hx
                      by_cases hxt : x = t
                      · subst hxt
                        rw [hsgt] at hx
                        cases hx
                      · simp only [if_neg hxt]
                        exact hx
                  refine ⟨hstep02.trans hstep23, Or.inl ⟨rfl, by simp, ?_, L2 ++ [t], ?_, ?_⟩⟩
                  · intro x
                    by_cases hx : x = t
                    · subst hx
                      simp only [if_pos rfl]
                      constructor
                      · intro h; cases h
                      · intro h; rw [hst] at h; cases h
                    · simp only [if_neg hx]
                      rw [hiff2 x]
                      simp [hx]
                  · obtain ⟨e1x, he1x⟩ := hLext2
                    exact ⟨e1x ++ [t], by rw [he1x, List.append_assoc]⟩
                  · have hinv3 := dfsinv_mark_singleton ps s2.c.singletons s2.c.closers
                      s2.st s2.w.trace L2 hinv2 t p v ext
                      (if p.closable then s2.c.closers ++ [⟨v.vid, t, p.closeErr⟩]
                       else s2.c.closers)
                      hlk hlife ht2notL2 hdepsL2 hte
                      (by by_cases hcl : p.closable
                          · exact Or.inr (by simp [hcl])
                          · exact Or.inl (by simp [hcl]))
                    have htr2 : w3.trace = s2.w.trace ++ (ext ++ [(p.name, t)]) := by
                      rw [htr, hout]
                    rw [htr2]
                    exact hinv3
                · rw [hcon2] at hcc
                  have hw : w3 = w' := congrArg Prod.fst hcc
                  have hr3 : r3 = .error e := congrArg Prod.snd hcc
                  subst hw
                  subst hr3
                  have hres : buildResolve (fuel + 1) t stack s
                      = ({ s2 with w := w3 }, some (.constructing t e)) := by
                    rw [buildResolve]
                    simp only [hst, hlk2, hbd, hlife, hcon]
                    simp
                  rw [hres]
                  have hstep23 : BStep s2 { s2 with w := w3 } := by
                    refine ⟨rfl, rfl, rfl, rfl, ⟨[], by simp⟩, ?_, fun x => Nat.le_refl _,
                      fun _ _ h => h⟩
                    obtain ⟨x2, hx2⟩ := hext
                    exact ⟨x2, hx2⟩
                  obtain ⟨k, hk⟩ := hroot
                  obtain ⟨ds1, q, hw1, hp1, hq1⟩ :=
                    (construct_err_shape_all ps s2.c.singletons (ps.length + 1)).1 p s2.w w3 e
                      hcon2 k hk
                  exact ⟨hstep02.trans hstep23,
                    Or.inr ⟨_, rfl, Or.inr (Or.inr ⟨t, p, e, rfl, hlk, hlife,
                      k, ds1, q, hk, hw1, hp1, hq1⟩)⟩⟩
          · simp at habs

theorem build_dfs_spec (ps : List (Ty × Provider))
    (hnodup : (ps.map Prod.fst).Nodup)
    (hkeyed : ∀ pr ∈ ps, pr.2.outType = pr.1) :
    ∀ fuel, RSpec ps fuel ∧ DSpec ps fuel := by
  intro fuel
  induction fuel with
  | zero => exact ⟨rspec_zero ps, dspec_of_rspec ps 0 (rspec_zero ps)⟩
  | succ n ih =>
    have hr := rspec_succ ps hnodup hkeyed n ih.2
    exact ⟨hr, dspec_of_rspec ps (n + 1) hr⟩

theorem buildAll_spec (ps : List (Ty × Provider)) (fuel : Nat) (hR : RSpec ps fuel) :
    ∀ (keys : List Ty) (s : BState) (L : List Ty),
      (∀ t ∈ keys, t ∈ ps.map Prod.fst) →
      s.c.providers = ps →
      DfsInv ps s.c.singletons s.c.closers s.st s.w.trace L →
      (∀ x, s.st x ≠ .visiting) →
      unvisitedCount (ps.map Prod.fst) s.st + 1 ≤ fuel →
      BStep s (buildAll fuel keys s).1 ∧
      (((buildAll fuel keys s).2 = none ∧
        (∀ t ∈ keys, (buildAll fuel keys s).1.st t = .visited) ∧
        ∃ L', (∃ ext, L' = L ++ ext) ∧
          DfsInv ps (buildAll fuel keys s).1.c.singletons
            (buildAll fuel keys s).1.c.closers (buildAll fuel keys s).1.st
            (buildAll fuel keys s).1.w.trace L') ∨
       (∃ e, (buildAll fuel keys s).2 = some e ∧ ErrCaseC ps e)) := by
  intro keys
  induction keys with
  | nil =>
    intro s L hkeys hps hinv hnv hfuel
    have hres : buildAll fuel [] s = (s, none) := by rw [buildAll]
    rw [hres]
    exact ⟨BStep.refl s, Or.inl ⟨rfl, by simp, L, ⟨[], by simp⟩, hinv⟩⟩
  | cons k keys ih =>
    intro s L hkeys hps hinv hnv hfuel
    have hstack : StackOk ps s.st [] :=
      ⟨fun x => ⟨fun h => absurd h (hnv x), fun h => absurd h (List.not_mem_nil x)⟩, trivial⟩
    have hchild := hR k [] s L hps hinv hstack (Or.inl rfl) hfuel
    cases hbr : buildResolve fuel k [] s with
    | mk s1 r1 =>
      rw [hbr] at hchild
      obtain ⟨hstep1, hrest1⟩ := hchild
      cases r1 with
      | some e =>
        have hres : buildAll fuel (k :: keys) s = (s1, some e) := by
          rw [buildAll]; simp only [hbr]
        rw [hres]
        rcases hrest1 with ⟨habs, _⟩ | ⟨e2, he2, hec2⟩
        · simp at habs
        · have hee : e2 = e := by simpa using he2.symm
          subst hee
          refine ⟨hstep1, Or.inr ⟨e2, rfl, ?_⟩⟩
          rcases hec2 with h1 | h2 | h3
          · exact Or.inl h1
          · obtain ⟨d, he, hlkd, hor⟩ := h2
            refine Or.inr (Or.inl ⟨d, he, hlkd, ?_⟩)
            rcases hor with heq | hpar
            · subst heq
              have := lookup_isSome_iff.mpr (hkeys d (List.mem_cons_self _ _))
              rw [hlkd] at this
              cases this
            · exact hpar
          · exact Or.inr (Or.inr h3)
      | none =>
        rcases hrest1 with ⟨_, hvis1, hiff1, L1, hLext1, hinv1⟩ | ⟨e2, habs, _⟩
        · have hps1 : s1.c.providers = ps := by rw [hstep1.provEq]; exact hps
          have hnv1 : ∀ x, s1.st x ≠ .visiting := by
            intro x hv
            exact hnv x ((hiff1 x).mp hv)
          have hfuel1 : unvisitedCount (ps.map Prod.fst) s1.st + 1 ≤ fuel :=
            Nat.le_trans (Nat.succ_le_succ (unvisitedCount_mono _ _ _ hstep1.stMono)) hfuel
          have htail := ih s1 L1 (fun t ht => hkeys t (List.mem_cons_of_mem _ ht))
            hps1 hinv1 hnv1 hfuel1
          cases hba : buildAll fuel keys s1 with
          | mk s2 r2 =>
            rw [hba] at htail
            obtain ⟨hstep2, hrest2⟩ := htail
            have hres : buildAll fuel (k :: keys) s = (s2, r2) := by
              rw [buildAll]; simp only [hbr, hba]
            rw [hres]
            refine ⟨hstep1.trans hstep2, ?_⟩
            rcases hrest2 with ⟨hn2, hall2, L2, hLext2, hinv2⟩ | ⟨e2, he2, hec2⟩
            · refine Or.inl ⟨hn2, ?_, L2, ?_, hinv2⟩
              · intro t ht
                rcases List.mem_cons.mp ht with h | h
                · subst h
                  apply bsRank_visited
                  have h2 := hstep2.stMono t
                  rw [hvis1] at h2
                  exact h2
                · exact hall2 t h
              · obtain ⟨e1x, he1x⟩ := hLext1
                obtain ⟨e2x, he2x⟩ := hLext2
                exact ⟨e1x ++ e2x, by rw [he2x, he1x, List.append_assoc]⟩
            · exact Or.inr ⟨e2, he2, hec2⟩
        · simp at habs

theorem validateNamed_none (c : Container) :
    ∀ l : List (String × Provider),
      (∀ np ∈ l, ∀ d ∈ np.2.deps, (c.providers.lookup d).isSome) →
      validateNamed c l = none := by
  intro l
  induction l with
  | nil => intro _; rw [validateNamed]
  | cons np l ih =>
    intro h
    obtain ⟨nm, p⟩ := np
    rw [validateNamed]
    have hf : p.deps.find? (fun d => (c.providers.lookup d).isNone) = none := by
      rw [List.find?_eq_none]
      intro d hd hcontra
      have hs := h (nm, p) (List.mem_cons_self _ _) d hd
      rw [Option.isNone_iff_eq_none] at hcontra
      rw [hcontra] at hs
      cases hs
    rw [hf]
    exact ih (fun np2 h2 => h np2 (List.mem_cons_of_mem _ h2))

theorem validateNamed_some (c : Container) :
    ∀ (l : List (String × Provider)) (e : OakError),
      validateNamed c l = some e →
      ∃ nm q d, (nm, q) ∈ l ∧ e = .namedDepNotFound nm d ∧ d ∈ q.deps ∧
        c.providers.lookup d = none := by
  intro l
  induction l with
  | nil => intro e h; rw [validateNamed] at h; cases h
  | cons np l ih =>
    intro e h
    obtain ⟨nm, p⟩ := np
    rw [validateNamed] at h
    cases hf : p.deps.find? (fun d => (c.providers.lookup d).isNone) with
    | some d =>
      rw [hf] at h
      have hee : e = .namedDepNotFound nm d := by simpa using h.symm
      have hmem := List.mem_of_find?_eq_some hf
      have hnone := List.find?_some hf
      refine ⟨nm, p, d, List.mem_cons_self _ _, hee, hmem, ?_⟩
      simpa [Option.isNone_iff_eq_none] using hnone
    | none =>
      rw [hf] at h
      obtain ⟨nm2, q, d, hmem, he, hd, hlk⟩ := ih e h
      exact ⟨nm2, q, d, List.mem_cons_of_mem _ hmem, he, hd, hlk⟩

theorem unvisitedCount_fresh (ks : List Ty) :
    unvisitedCount ks (fun _ => BuildState.unvisited) = ks.length := by
  rw [unvisitedCount]
  have : ks.filter (fun t => (fun _ => BuildState.unvisited) t == BuildState.unvisited)
      = ks := List.filter_eq_self.mpr (fun a _ => by simp)
  rw [this]

/-- A visitation order covering every key and respecting dependencies
certifies acyclicity. -/
theorem ordered_cover_acyclic (ps : List (Ty × Provider)) (L : List Ty)
    (hcov : ∀ pr ∈ ps, pr.1 ∈ L)
    (horder : ∀ t ∈ L, ∀ p, ps.lookup t = some p →
      ∀ d ∈ p.deps, d ∈ L ∧ L.indexOf d < L.indexOf t) :
    Acyclic ps := by
  apply ranked_acyclic ps (fun t => L.indexOf t)
  intro a b hab
  obtain ⟨p, hlk, hb⟩ := hab
  have haL : a ∈ L := hcov (a, p) (lookup_mem hlk)
  exact (horder a haL p hlk b hb).2

theorem depPath_end_mem (ps : List (Ty × Provider)) :
    ∀ (p : Provider) (ds : List Ty) (q : Provider),
      DepPath ps p ds q → q = p ∨ ∃ d, (d, q) ∈ ps := by
  intro p ds q h
  induction h with
  | nil => exact Or.inl rfl
  | cons p2 d pd ds2 q2 hd hlk hrec ih =>
    rcases ih with h2 | h2
    · subst h2
      exact Or.inr ⟨d, lookup_mem hlk⟩
    · exact Or.inr h2

/-- Full dichotomy of one Build call on a well-formed, freshly registered
container: the provider and named maps are never changed; on success the
container is sealed and there is a visitation order L covering every
registered type, with all the invariant facts about the cache, the trace
and the closer list; on failure the container stays unsealed and the
error has one of the canonical shapes (or is a named-validation error). -/
theorem Build_main (c : Container) (w : World) (hwf : WfReg c) (htr : w.trace = []) :
    (c.Build w).1.providers = c.providers ∧
    (c.Build w).1.named = c.named ∧
    (∃ ext, (c.Build w).2.1.trace = w.trace ++ ext) ∧
    (∀ t v, c.singletons t = some v → (c.Build w).1.singletons t = some v) ∧
    (∃ ext, (c.Build w).1.closers = c.closers ++ ext) ∧
    (((c.Build w).2.2 = none ∧ (c.Build w).1.built = true ∧
      ∃ L : List Ty,
        L.Nodup ∧
        (∀ pr ∈ c.providers, pr.1 ∈ L) ∧
        (∀ t ∈ L, (c.providers.lookup t).isSome) ∧
        (∀ t ∈ L, ∀ p, c.providers.lookup t = some p →
          ∀ d ∈ p.deps, d ∈ L ∧ L.indexOf d < L.indexOf t) ∧
        (∀ t ∈ L, ∀ p, c.providers.lookup t = some p → p.lifetime = .Singleton →
          ((c.Build w).1.singletons t).isSome) ∧
        (∀ t p, c.providers.lookup t = some p → p.lifetime = .Singleton →
          countTy (c.Build w).2.1.trace t = (if t ∈ L then 1 else 0)) ∧
        (∀ t ∈ L, ∀ p, c.providers.lookup t = some p → p.lifetime = .Singleton →
          ∀ d ∈ p.deps, ∀ pd, c.providers.lookup d = some pd → pd.lifetime = .Singleton →
          builtBefore (c.Build w).2.1.trace d t) ∧
        List.Sublist ((c.Build w).1.closers.map Closer.ty)
          ((c.Build w).2.1.trace.map Prod.snd)) ∨
     (∃ e, (c.Build w).2.2 = some e ∧ (c.Build w).1.built = false ∧
       (ErrCaseC c.providers e ∨
        (Acyclic c.providers ∧
         ∃ nm q d, (nm, q) ∈ c.named ∧ e = .namedDepNotFound nm d ∧ d ∈ q.deps ∧
          c.providers.lookup d = none)))) := by
  have hnodup := hwf.nodupKeys
  have hkeyed := hwf.keyed
  have hR : RSpec c.providers (c.providers.length + 1) :=
    (build_dfs_spec c.providers hnodup hkeyed (c.providers.length + 1)).1
  have hinv0 : DfsInv c.providers c.singletons c.closers (fun _ => .unvisited) w.trace [] := by
    refine ⟨List.nodup_nil, ?_, by simp, by simp, by simp, ?_, ?_, by simp, ?_⟩
    · intro t
      constructor
      · intro h; cases h
      · intro h; exact absurd h (List.not_mem_nil t)
    · intro t ht
      rw [hwf.emptyCache] at ht
      cases ht
    · intro t p _ _
      rw [htr]
      simp [countTy]
    · rw [hwf.emptyClosers, htr]
      simp
  have hfuel0 : unvisitedCount (c.providers.map Prod.fst) (fun _ => .unvisited) + 1
      ≤ c.providers.length + 1 := by
    rw [unvisitedCount_fresh, List.length_map]
  have hball := buildAll_spec c.providers (c.providers.length + 1) hR
    (c.providers.map Prod.fst) ⟨c, fun _ => .unvisited, w⟩ []
    (fun t ht => ht) rfl hinv0 (fun x h => by cases h) hfuel0
  cases hba : buildAll (c.providers.length + 1) (c.providers.map Prod.fst)
      ⟨c, fun _ => .unvisited, w⟩ with
  | mk s1 r1 =>
    rw [hba] at hball
    obtain ⟨hstep1, hrest1⟩ := hball
    have hps1 : s1.c.providers = c.providers := hstep1.provEq
    have hnamed1 : s1.c.named = c.named := hstep1.namedEq
    have hbuilt1 : s1.c.built = false := by rw [hstep1.builtEq]; exact hwf.notBuiltYet
    cases r1 with
    | some e =>
      have hres : c.Build w = (s1.c, s1.w, some e) := by
        rw [Container.Build]
        simp only [hwf.notBuiltYet, Bool.false_eq_true, if_false, hba]
      rw [hres]
      rcases hrest1 with ⟨habs, _⟩ | ⟨e2, he2, hec2⟩
      · simp at habs
      · have hee : e2 = e := by simpa using he2.symm
        subst hee
        exact ⟨hps1, hnamed1, hstep1.traceExt, hstep1.cacheMono, hstep1.closersExt,
          Or.inr ⟨e2, rfl, hbuilt1, Or.inl hec2⟩⟩
    | none =>
      rcases hrest1 with ⟨_, hall1, L1, hLext1, hinv1⟩ | ⟨e2, habs, _⟩
      · cases hv : validateNamed s1.c s1.c.named with
        | some e =>
          have hres : c.Build w = (s1.c, s1.w, some e) := by
            rw [Container.Build]
            simp only [hwf.notBuiltYet, Bool.false_eq_true, if_false, hba, hv]
          rw [hres]
          obtain ⟨nm, q, d, hmem, he, hd, hlk⟩ := validateNamed_some s1.c s1.c.named e hv
          rw [hnamed1] at hmem
          rw [hps1] at hlk
          have hacyc : Acyclic c.providers := by
            apply ordered_cover_acyclic c.providers L1
            · intro pr hpr
              apply (hinv1.visitedIff pr.1).mp
              apply hall1
              exact List.mem_map.mpr ⟨pr, hpr, rfl⟩
            · exact hinv1.orderOk
          exact ⟨hps1, hnamed1, hstep1.traceExt, hstep1.cacheMono, hstep1.closersExt,
            Or.inr ⟨e, rfl, hbuilt1, Or.inr ⟨hacyc, nm, q, d, hmem, he, hd, hlk⟩⟩⟩
        | none =>
          have hres : c.Build w = ({ s1.c with built := true }, s1.w, none) := by
            rw [Container.Build]
            simp only [hwf.notBuiltYet, Bool.false_eq_true, if_false, hba, hv]
          rw [hres]
          refine ⟨hps1, hnamed1, hstep1.traceExt, hstep1.cacheMono, hstep1.closersExt,
            Or.inl ⟨rfl, rfl, L1, hinv1.nodupL, ?_, ?_, ?_, ?_, ?_, ?_, ?_⟩⟩
          · intro pr hpr
            apply (hinv1.visitedIff pr.1).mp
            apply hall1
            exact List.mem_map.mpr ⟨pr, hpr, rfl⟩
          · intro t ht
            exact hinv1.keysOk t ht
          · intro t ht p hp d hd
            exact hinv1.orderOk t ht p hp d hd
          · intro t ht p hp hsg
            exact hinv1.cachedOk t ht p hp hsg
          · intro t p hp hsg
            exact hinv1.countOk t p hp hsg
          · intro t ht p hp hsg d hd pd hpd hspd
            exact hinv1.edgeOrderOk t ht p hp hsg d hd pd hpd hspd
          · exact hinv1.closersOk
      · simp at habs

/-!  Claims C1, C2, C3 (amended) and C6, built on the Build dichotomy. -/
/-- C6: after a successful Build of a well-formed registration set, every
type registered with Singleton lifetime has an instance in the singleton
cache, and every Resolve call for it returns exactly that cached instance,
leaving the world untouched — so any two Resolve calls return the
identical instance. -/
theorem C6_singleton_identity (c : Container) (w : World) (hwf : WfReg c)
    (htr : w.trace = []) (hok : (c.Build w).2.2 = none) :
    ∀ t p, c.providers.lookup t = some p → p.lifetime = .Singleton →
      ∃ v, (c.Build w).1.singletons t = some v ∧
        ∀ w2, (c.Build w).1.Resolve t w2 = (w2, .ok v) := by
  obtain ⟨hprov, hnamed, htrext, hcmono, hclo, hcases⟩ := Build_main c w hwf htr
  rcases hcases with ⟨_, hbuilt, L, hnodupL, hcov, hkeys, horder, hcached, hcount, heo, hcl⟩
    | ⟨e, he, _⟩
  · intro t p hp hs
    have htL : t ∈ L := hcov (t, p) (lookup_mem hp)
    have hsome := hcached t htL p hp hs
    obtain ⟨v, hv⟩ := Option.isSome_iff_exists.mp hsome
    refine ⟨v, hv, ?_⟩
    intro w2
    rw [Container.Resolve, hbuilt]
    simp [hv]
  · rw [he] at hok
    cases hok

theorem chainW_wf : WfReg chainW := by
  refine ⟨by decide, by decide, rfl, rfl, rfl⟩

theorem chainW_build_ok : (chainW.Build World.init).2.2 = none := by
  simp [chainW, Container.new, Container.Build, buildAll, buildResolve, buildDeps,
    validateNamed, construct, constructDeps, List.lookup]

theorem C6_singleton_identity_witness :
    ∃ v, (chainW.Build World.init).1.singletons 0 = some v ∧
      ∀ w2, (chainW.Build World.init).1.Resolve 0 w2 = (w2, .ok v) :=
  C6_singleton_identity chainW World.init chainW_wf rfl chainW_build_ok 0
    ⟨[1], .Singleton, "", 0, none, true, none⟩ (by simp [chainW, Container.new, List.lookup]) rfl

/-- C1 (amended): for a well-formed registration set whose dependency
graph is acyclic, in which every declared input of every unnamed provider
and of every named provider has an unnamed provider, and in which no
unnamed provider's constructor returns an error, Build succeeds, the
constructor of every Singleton provider is invoked exactly once during the
Build, and every singleton dependency of a singleton provider is
constructed (and hence cached) before its dependent's constructor runs.
The amendment relative to the frozen claim adds the named-provider input
condition and the no-constructor-error condition, both forced by
counterexamples. -/
theorem C1_amended_build_succeeds (c : Container) (hwf : WfReg c)
    (hdeps : ∀ pr ∈ c.providers, ∀ d ∈ pr.2.deps, (c.providers.lookup d).isSome)
    (hnameddeps : ∀ np ∈ c.named, ∀ d ∈ np.2.deps, (c.providers.lookup d).isSome)
    (hnocerr : ∀ pr ∈ c.providers, pr.2.cerr = none)
    (hacyc : Acyclic c.providers) :
    (c.Build World.init).2.2 = none ∧
    (∀ pr ∈ c.providers, pr.2.lifetime = .Singleton →
      countTy (c.Build World.init).2.1.trace pr.1 = 1) ∧
    (∀ pr ∈ c.providers, pr.2.lifetime = .Singleton →
      ∀ d ∈ pr.2.deps, ∀ pd, c.providers.lookup d = some pd → pd.lifetime = .Singleton →
      builtBefore (c.Build World.init).2.1.trace d pr.1) := by
  obtain ⟨hprov, hnamed, htrext, hcmono, hclo, hcases⟩ := Build_main c World.init hwf rfl
  rcases hcases with ⟨hok, hbuilt, L, hnodupL, hcov, hkeys, horder, hcached, hcount, heo, hcl⟩
    | ⟨e, he, hunbuilt, herr⟩
  · refine ⟨hok, ?_, ?_⟩
    · intro pr hpr hsg
      have hlk : c.providers.lookup pr.1 = some pr.2 :=
        lookup_eq_some_of_mem hwf.nodupKeys (by cases pr; exact hpr)
      rw [hcount pr.1 pr.2 hlk hsg, if_pos (hcov pr hpr)]
    · intro pr hpr hsg d hd pd hpd hspd
      have hlk : c.providers.lookup pr.1 = some pr.2 :=
        lookup_eq_some_of_mem hwf.nodupKeys (by cases pr; exact hpr)
      exact heo pr.1 (hcov pr hpr) pr.2 hlk hsg d hd pd hpd hspd
  · exfalso
    rcases herr with herr | ⟨_, nm, q, d, hmem, _, hd, hlkd⟩
    · rcases herr with ⟨chain, cyc, _, hcyc, _⟩ | ⟨d, _, hlkd, t2, p2, hlk2, hd2⟩
        | ⟨tS, pS, e2, _, hlkS, _, k, ds, q, _, _, hdp, hqc⟩
      · exact hacyc cyc hcyc
      · have := hdeps (t2, p2) (lookup_mem hlk2) d hd2
        rw [hlkd] at this
        cases this
      · rcases depPath_end_mem c.providers pS ds q hdp with hq | ⟨d2, hq⟩
        · subst hq
          have := hnocerr (tS, q) (lookup_mem hlkS)
          rw [this] at hqc
          cases hqc
        · have := hnocerr (d2, q) hq
          rw [this] at hqc
          cases hqc
    · have := hnameddeps (nm, q) hmem d hd
      rw [hlkd] at this
      cases this

theorem C1_amended_build_succeeds_witness :
    (chainW.Build World.init).2.2 = none ∧
    (∀ pr ∈ chainW.providers, pr.2.lifetime = .Singleton →
      countTy (chainW.Build World.init).2.1.trace pr.1 = 1) := by
  have h := C1_amended_build_succeeds chainW chainW_wf (by decide) (by decide) (by decide)
    (ranked_acyclic chainW.providers (fun t => if t = 1 then 0 else 1) (by
      intro a b hab
      obtain ⟨p, hlk, hb⟩ := hab
      have hm := lookup_mem hlk
      simp [chainW, Container.new] at hm
      rcases hm with ⟨ha, hp⟩ | ⟨ha, hp⟩
      · subst ha
        subst hp
        simp at hb
        subst hb
        simp
      · subst hp
        simp at hb))
  exact ⟨h.1, h.2.1⟩

/-- C2 (amended): for a well-formed registration set whose dependency
graph contains a cycle, in which every declared input of every unnamed
provider has an unnamed provider and no unnamed provider's constructor
returns an error, Build fails with the CircularDependency error, and the
reported chain contains every type-identity of some dependency cycle (the
detected one).  The amendment relative to the frozen claim adds the
input-satisfaction and no-constructor-error conditions (forced by the
counterexample, where an unrelated missing provider is reported instead)
and reads the-cycle as the detected cycle. -/
theorem C2_amended_cycle_detected (c : Container) (hwf : WfReg c)
    (hdeps : ∀ pr ∈ c.providers, ∀ d ∈ pr.2.deps, (c.providers.lookup d).isSome)
    (hnocerr : ∀ pr ∈ c.providers, pr.2.cerr = none)
    (hcyc : ∃ l, IsDepCycle c.providers l) :
    ∃ chain, (c.Build World.init).2.2 = some (.circularDependency chain) ∧
      ∃ cyc, IsDepCycle c.providers cyc ∧ ∀ x ∈ cyc, x ∈ chain := by
  obtain ⟨l0, hl0⟩ := hcyc
  obtain ⟨hprov, hnamed, htrext, hcmono, hclo, hcases⟩ := Build_main c World.init hwf rfl
  rcases hcases with ⟨hok, hbuilt, L, hnodupL, hcov, hkeys, horder, hcached, hcount, heo, hcl⟩
    | ⟨e, he, hunbuilt, herr⟩
  · exact absurd hl0 (ordered_cover_acyclic c.providers L hcov horder l0)
  · rcases herr with herr | ⟨hacyc, _⟩
    · rcases herr with ⟨chain, cyc, hce, hcyc2, hsub⟩ | ⟨d, _, hlkd, t2, p2, hlk2, hd2⟩
        | ⟨tS, pS, e2, _, hlkS, _, k, ds, q, _, _, hdp, hqc⟩
      · rw [he, hce]
        exact ⟨chain, rfl, cyc, hcyc2, hsub⟩
      · exfalso
        have := hdeps (t2, p2) (lookup_mem hlk2) d hd2
        rw [hlkd] at this
        cases this
      · exfalso
        rcases depPath_end_mem c.providers pS ds q hdp with hq | ⟨d2, hq⟩
        · subst hq
          have := hnocerr (tS, q) (lookup_mem hlkS)
          rw [this] at hqc
          cases hqc
        · have := hnocerr (d2, q) hq
          rw [this] at hqc
          cases hqc
    · exact absurd hl0 (hacyc l0)

theorem C2_amended_cycle_detected_witness :
    ∃ chain, (cycW.Build World.init).2.2 = some (.circularDependency chain) ∧
      ∃ cyc, IsDepCycle cycW.providers cyc ∧ ∀ x ∈ cyc, x ∈ chain :=
  C2_amended_cycle_detected cycW ⟨by decide, by decide, rfl, rfl, rfl⟩ (by decide) (by decide)
    ⟨[3], by simp, trivial, ⟨⟨[3], .Singleton, "", 3, none, false, none⟩, rfl, by simp⟩⟩

/-- C3 (amended): a user-constructor error is reported as follows.  During
Build, the returned error wraps the constructor error with the chain of
dependency type-identities that were being constructed to reach it,
outermost the singleton whose construction was in progress — singleton
ancestors of that singleton are not part of the chain.  During Resolve and
ResolveNamed, the error wraps the constructor error with the chain of
dependency type-identities recursed through below the requested provider;
when the requested provider's own constructor fails the error is returned
verbatim, without the requested type-identity.  In every case the wrapped
chain is a dependency path from the requested provider to the provider
whose constructor failed. -/
theorem C3_amended_error_chain :
    (∀ (c : Container) (w : World), WfReg c → w.trace = [] →
      ∀ e k, (c.Build w).2.2 = some e → userRoot e = some k →
        ∃ tS pS e2, e = .constructing tS e2 ∧ c.providers.lookup tS = some pS ∧
          pS.lifetime = .Singleton ∧
          ∃ ds q, wrapTypes e2 = ds ∧ DepPath c.providers pS ds q ∧ q.cerr = some k ∧
            wrapTypes e = tS :: ds) ∧
    (∀ (c : Container) (t : Ty) (w w2 : World) (e : OakError) (k : Nat),
      c.Resolve t w = (w2, .error e) → userRoot e = some k →
        ∃ p, c.providers.lookup t = some p ∧
          ∃ ds q, wrapTypes e = ds ∧ DepPath c.providers p ds q ∧ q.cerr = some k) ∧
    (∀ (c : Container) (nm : String) (t : Ty) (w w2 : World) (e : OakError) (k : Nat),
      c.ResolveNamed nm t w = (w2, .error e) → userRoot e = some k →
        ∃ p, c.named.lookup nm = some p ∧
          ∃ ds q, wrapTypes e = ds ∧ DepPath c.providers p ds q ∧ q.cerr = some k) := by
  refine ⟨?_, ?_, ?_⟩
  · intro c w hwf htr e k he hk
    obtain ⟨hprov, hnamed, htrext, hcmono, hclo, hcases⟩ := Build_main c w hwf htr
    rcases hcases with ⟨hok, _⟩ | ⟨e2, he2, hunbuilt, herr⟩
    · rw [hok] at he
      cases he
    · rw [he2] at he
      have hee : e2 = e := by simpa using he
      subst hee
      rcases herr with herr | ⟨_, nm, q, d, _, hed, _, _⟩
      · rcases herr with ⟨chain, cyc, hce, _, _⟩ | ⟨d, hed, _, _⟩
          | ⟨tS, pS, e3, hed, hlkS, hsgS, k2, ds, q, hroot, hwrap, hdp, hqc⟩
        · rw [hce] at hk
          simp [userRoot] at hk
        · rw [hed] at hk
          simp [userRoot] at hk
        · subst hed
          rw [userRoot, hroot] at hk
          have hkk : k2 = k := by simpa using hk
          subst hkk
          exact ⟨tS, pS, e3, rfl, hlkS, hsgS, ds, q, hwrap, hdp, hqc,
            by rw [wrapTypes, hwrap]⟩
      · subst hed
        simp [userRoot] at hk
  · intro c t w w2 e k hres hk
    rw [Container.Resolve] at hres
    by_cases hb : c.built = false
    · rw [if_pos hb] at hres
      obtain ⟨hw, he⟩ : w2 = w ∧ e = OakError.notBuilt := by simpa using hres.symm
      rw [he] at hk
      simp [userRoot] at hk
    · rw [if_neg hb] at hres
      cases hsg : c.singletons t with
      | some v =>
        simp only [hsg] at hres
        simp at hres
      | none =>
        simp only [hsg] at hres
        cases hlk : c.providers.lookup t with
        | none =>
          simp only [hlk] at hres
          obtain ⟨hw, he⟩ : w2 = w ∧ e = OakError.providerNotFound t := by
            simpa using hres.symm
          rw [he] at hk
          simp [userRoot] at hk
        | some p =>
          simp only [hlk] at hres
          obtain ⟨ds, q, hw, hdp, hqc⟩ :=
            (construct_err_shape_all c.providers c.singletons (c.providers.length + 1)).1
              p w w2 e hres k hk
          exact ⟨p, rfl, ds, q, hw, hdp, hqc⟩
  · intro c nm t w w2 e k hres hk
    rw [Container.ResolveNamed] at hres
    by_cases hb : c.built = false
    · rw [if_pos hb] at hres
      obtain ⟨hw, he⟩ : w2 = w ∧ e = OakError.notBuilt := by simpa using hres.symm
      rw [he] at hk
      simp [userRoot] at hk
    · rw [if_neg hb] at hres
      cases hlk : c.named.lookup nm with
      | none =>
        simp only [hlk] at hres
        obtain ⟨hw, he⟩ : w2 = w ∧ e = OakError.providerNotFoundNamed nm := by
          simpa using hres.symm
        rw [he] at hk
        simp [userRoot] at hk
      | some p =>
        simp only [hlk] at hres
        by_cases hty : p.outType = t
        · rw [if_neg (fun h => h hty)] at hres
          obtain ⟨ds, q, hw, hdp, hqc⟩ :=
            (construct_err_shape_all c.providers c.singletons (c.providers.length + 1)).1
              p w w2 e hres k hk
          exact ⟨p, rfl, ds, q, hw, hdp, hqc⟩
        · rw [if_pos hty] at hres
          obtain ⟨hw, he⟩ : w2 = w ∧ e = OakError.notAssignable nm := by
            simpa using hres.symm
          rw [he] at hk
          simp [userRoot] at hk

theorem C3_amended_error_chain_witness :
    ∃ tS pS e2, (failW.Build World.init).2.2 = some (.constructing tS e2) ∧
      failW.providers.lookup tS = some pS ∧ pS.lifetime = .Singleton ∧
      ∃ ds q, wrapTypes e2 = ds ∧ DepPath failW.providers pS ds q ∧ q.cerr = some 4 ∧
        wrapTypes (.constructing tS e2) = tS :: ds := by
  have hbuild : (failW.Build World.init).2.2
      = some (.constructing 8 (.resolving 9 (.userError 4))) := by
    simp [failW, Container.new, Container.Build, buildAll, buildResolve, buildDeps,
      validateNamed, construct, constructDeps, List.lookup]
  obtain ⟨tS, pS, e2, hed, hlkS, hsgS, ds, q, hwrap, hdp, hqc, houter⟩ :=
    C3_amended_error_chain.1 failW World.init ⟨by decide, by decide, rfl, rfl, rfl⟩ rfl
      (.constructing 8 (.resolving 9 (.userError 4))) 4 hbuild rfl
  exact ⟨tS, pS, e2, by rw [hbuild, hed], hlkS, hsgS, ds, q, hwrap, hdp, hqc,
    by rw [← hed]; exact houter⟩

/-- C7: on a built, not-yet-shut-down container, Shutdown invokes the
Close operation of exactly the closers in the reverse of the tracked
(construction) order, cut short at the first deadline check that finds the
deadline expired; it returns the join of the individual close failures, in
order, followed by the deadline error if one was observed, and returns nil
exactly when no close failed and the deadline was never observed expired
before a pending closer.  Moreover the closer list of a successfully built
container lists the closable singletons in construction order: its types
form an ordered subsequence of the construction trace. -/
theorem C7_shutdown_reverse_order :
    (∀ (c : Container) (dl : Option Nat), c.built = true → c.shutdown = false →
      c.Shutdown dl =
        ({ c with shutdown := true },
         joinErrs ((c.closers.reverse.take (shutCut dl 0 c.closers.length)).filterMap
              (fun cl => cl.closeErr.map OakError.userError)
            ++ (if shutHit dl 0 c.closers.length then [.ctxDeadline] else [])),
         c.closers.reverse.take (shutCut dl 0 c.closers.length)) ∧
      ((c.Shutdown dl).2.1 = none ↔
        (∀ cl ∈ c.closers, cl.closeErr = none) ∧
          shutHit dl 0 c.closers.length = false)) ∧
    (∀ (c : Container) (w : World), WfReg c → w.trace = [] → (c.Build w).2.2 = none →
      List.Sublist ((c.Build w).1.closers.map Closer.ty)
        ((c.Build w).2.1.trace.map Prod.snd)) := by
  constructor
  · intro c dl hb hs
    have hspec := shutdown_spec c dl hb hs
    refine ⟨hspec, ?_⟩
    rw [hspec]
    simp only [joinErrs_eq_none_iff, List.append_eq_nil, List.filterMap_eq_nil_iff]
    constructor
    · rintro ⟨hall, hite⟩
      have hhit : shutHit dl 0 c.closers.length = false := by
        by_cases h : shutHit dl 0 c.closers.length
        · rw [if_pos h] at hite
          cases hite
        · simpa using h
      have hfull : c.closers.reverse.take (shutCut dl 0 c.closers.length)
          = c.closers.reverse := by
        apply List.take_of_length_le
        rw [List.length_reverse]
        cases dl with
        | none => exact Nat.le_refl _
        | some k =>
          rw [shutHit] at hhit
          simp at hhit
          rw [shutCut]
          omega
      refine ⟨?_, hhit⟩
      intro cl hcl
      have hm : cl ∈ c.closers.reverse.take (shutCut dl 0 c.closers.length) := by
        rw [hfull]
        exact List.mem_reverse.mpr hcl
      have := hall cl hm
      simpa using this
    · rintro ⟨hall, hhit⟩
      rw [hhit]
      refine ⟨?_, by simp⟩
      intro cl hcl
      have hm : cl ∈ c.closers := List.mem_reverse.mp (List.mem_of_mem_take hcl)
      rw [hall cl hm]
      rfl
  · intro c w hwf htr hok
    obtain ⟨hprov, hnamed, htrext, hcmono, hclo, hcases⟩ := Build_main c w hwf htr
    rcases hcases with ⟨_, _, L, _, _, _, _, _, _, _, hcl⟩ | ⟨e, he, _⟩
    · exact hcl
    · rw [he] at hok
      cases hok

theorem C7_shutdown_reverse_order_witness :
    ((shutW2.Shutdown none).2.1 = none ↔
      (∀ cl ∈ shutW2.closers, cl.closeErr = none) ∧
        shutHit none 0 shutW2.closers.length = false) ∧
    List.Sublist ((chainW.Build World.init).1.closers.map Closer.ty)
      ((chainW.Build World.init).2.1.trace.map Prod.snd) :=
  ⟨(C7_shutdown_reverse_order.1 shutW2 none rfl rfl).2,
   C7_shutdown_reverse_order.2 chainW World.init chainW_wf rfl chainW_build_ok⟩

/-- C4: when a Singleton provider depends on a Transient provider, Build
succeeds, the transient constructor is invoked exactly once (the whole
trace holds exactly one invocation of it), and every subsequent Resolve of
the singleton type returns the one cached instance while leaving the world
— in particular the invocation trace — untouched, so the transient
constructor is never invoked again. -/
theorem C4_captured_transient (s tr : Ty) (hne : s ≠ tr) :
    ((c4container s tr).Build World.init).2.2 = none ∧
    countTy ((c4container s tr).Build World.init).2.1.trace tr = 1 ∧
    ∃ v, ((c4container s tr).Build World.init).1.singletons s = some v ∧
      ∀ w, ((c4container s tr).Build World.init).1.Resolve s w = (w, .ok v) := by
  have hne2 : tr ≠ s := Ne.symm hne
  have hbeq1 : (tr == s) = false := beq_eq_false_iff_ne.mpr hne2
  have hbeq2 : (s == tr) = false := beq_eq_false_iff_ne.mpr hne
  have hbuild : (c4container s tr).Build World.init
      = ({ c4container s tr with
            singletons := fun x => if x = s then some ⟨1, [0]⟩ else none,
            built := true },
         ⟨2, [("", tr), ("", s)]⟩, none) := by
    simp [c4container, Container.new, Container.Build, buildAll, buildResolve, buildDeps,
      validateNamed, construct, constructDeps, List.lookup, hne, hne2, hbeq1, hbeq2,
      World.init]
  rw [hbuild]
  refine ⟨rfl, ?_, ⟨1, [0]⟩, ?_, ?_⟩
  · simp [countTy, List.countP_cons, hbeq2]
  · simp
  · intro w
    rw [Container.Resolve]
    simp

theorem C4_captured_transient_witness :
    ((c4container 0 1).Build World.init).2.2 = none ∧
    countTy ((c4container 0 1).Build World.init).2.1.trace 1 = 1 :=
  ⟨(C4_captured_transient 0 1 (by decide)).1, (C4_captured_transient 0 1 (by decide)).2.1⟩

/-- C9: Build is not atomic on failure.  Generically, a failed Build
leaves the container unsealed with its provider and named maps intact,
keeps every already-cached singleton in the cache and every recorded
closer in the closer list, and Register still accepts new providers.
Concretely, on the two-singleton set where the second constructor fails,
the first singleton's instance and closer survive the failed Build, the
container stays unsealed, and a second Build invokes the first singleton's
constructor again (its type appears twice in the accumulated trace). -/
theorem C9_build_not_atomic :
    (∀ (c : Container) (w : World), WfReg c → w.trace = [] →
      ∀ e, (c.Build w).2.2 = some e →
        (c.Build w).1.built = false ∧
        (c.Build w).1.providers = c.providers ∧
        (c.Build w).1.named = c.named ∧
        (∀ t v, c.singletons t = some v → (c.Build w).1.singletons t = some v) ∧
        (∃ ext, (c.Build w).1.closers = c.closers ++ ext) ∧
        (∀ p : Provider, (c.Build w).1.providers.lookup p.outType = none →
          ((c.Build w).1.Register p).2 = none)) ∧
    ((abW.Build World.init).2.2 = some (.constructing 1 (.userError 5)) ∧
     (abW.Build World.init).1.singletons 0 = some ⟨0, []⟩ ∧
     (abW.Build World.init).1.closers = [⟨0, 0, none⟩] ∧
     (abW.Build World.init).1.built = false ∧
     countTy ((abW.Build World.init).1.Build (abW.Build World.init).2.1).2.1.trace 0 = 2) := by
  constructor
  · intro c w hwf htr e he
    obtain ⟨hprov, hnamed, htrext, hcmono, hclo, hcases⟩ := Build_main c w hwf htr
    rcases hcases with ⟨hok, _⟩ | ⟨e2, he2, hunbuilt, _⟩
    · rw [hok] at he
      cases he
    · refine ⟨hunbuilt, hprov, hnamed, hcmono, hclo, ?_⟩
      intro p hlkp
      rw [Container.Register, Container.register, hunbuilt]
      simp [hlkp]
  · have hbuild : abW.Build World.init
        = ({ abW with
              singletons := fun x => if x = 0 then some ⟨0, []⟩ else none,
              closers := [⟨0, 0, none⟩] },
           ⟨1, [("", 0), ("", 1)]⟩, some (.constructing 1 (.userError 5))) := by
      simp [abW, Container.new, Container.Build, buildAll, buildResolve, buildDeps,
        validateNamed, construct, constructDeps, List.lookup, World.init]
    rw [hbuild]
    refine ⟨rfl, by simp, rfl, rfl, ?_⟩
    have hbuild2 : Container.Build
        { abW with
          singletons := fun x => if x = 0 then some ⟨0, []⟩ else none,
          closers := [⟨0, 0, none⟩] }
        ⟨1, [("", 0), ("", 1)]⟩
        = ({ abW with
              singletons := fun x =>
                if x = 0 then some ⟨1, []⟩ else if x = 0 then some ⟨0, []⟩ else none,
              closers := [⟨0, 0, none⟩, ⟨1, 0, none⟩] },
           ⟨2, [("", 0), ("", 1), ("", 0), ("", 1)]⟩,
           some (.constructing 1 (.userError 5))) := by
      simp [abW, Container.new, Container.Build, buildAll, buildResolve, buildDeps,
        validateNamed, construct, constructDeps, List.lookup]
    rw [hbuild2]
    simp [countTy, List.countP_cons]

theorem C9_build_not_atomic_witness :
    (abW.Build World.init).1.built = false ∧
    (abW.Build World.init).1.providers = abW.providers :=
  .intro
    (C9_build_not_atomic.1 abW World.init ⟨by decide, by decide, rfl, rfl, rfl⟩ rfl
      (.constructing 1 (.userError 5)) C9_build_not_atomic.2.1).1
    (C9_build_not_atomic.1 abW World.init ⟨by decide, by decide, rfl, rfl, rfl⟩ rfl
      (.constructing 1 (.userError 5)) C9_build_not_atomic.2.1).2.1

/-!  Claims C8 and C10: Shutdown idempotence and frame. -/
/-- C8: on a built, not-yet-shut-down container, the first Shutdown call
marks the container shut down regardless of its own outcome, and a second
Shutdown call returns the AlreadyShutdown error with an empty invocation
list, so no closer's Close operation runs again. -/
theorem C8_shutdown_not_retryable (c : Container) (dl1 dl2 : Option Nat)
    (hb : c.built = true) (hs : c.shutdown = false) :
    (c.Shutdown dl1).1.shutdown = true ∧
    (c.Shutdown dl1).1.Shutdown dl2 = ((c.Shutdown dl1).1, some .alreadyShutdown, []) := by
  have h1 := shutdown_spec c dl1 hb hs
  rw [h1]
  refine ⟨rfl, ?_⟩
  rw [Container.Shutdown]
  simp [hb]

theorem C8_shutdown_not_retryable_witness :
    shutW.built = true ∧ shutW.shutdown = false ∧
    (shutW.Shutdown (some 0)).1.Shutdown none
      = ((shutW.Shutdown (some 0)).1, some .alreadyShutdown, []) :=
  ⟨rfl, rfl, (C8_shutdown_not_retryable shutW (some 0) none rfl rfl).2⟩

theorem resolve_ignores_shutdown (c : Container) (b : Bool) (t : Ty) (w : World) :
    Container.Resolve { c with shutdown := b } t w = c.Resolve t w := by
  cases c; rfl

theorem resolveNamed_ignores_shutdown (c : Container) (b : Bool) (nm : String) (t : Ty)
    (w : World) :
    Container.ResolveNamed { c with shutdown := b } nm t w = c.ResolveNamed nm t w := by
  cases c; rfl

/-- C10: Shutdown changes nothing but the shutdown flag; Resolve and
ResolveNamed behave identically before and after it (they never inspect
the flag), and in particular a cached singleton is still served after
Shutdown. -/
theorem C10_shutdown_frame (c : Container) (dl : Option Nat)
    (hb : c.built = true) (hs : c.shutdown = false) :
    (c.Shutdown dl).1 = { c with shutdown := true } ∧
    (∀ t w, (c.Shutdown dl).1.Resolve t w = c.Resolve t w) ∧
    (∀ nm t w, (c.Shutdown dl).1.ResolveNamed nm t w = c.ResolveNamed nm t w) ∧
    (∀ t v, c.singletons t = some v → ∀ w, (c.Shutdown dl).1.Resolve t w = (w, .ok v)) := by
  have h1 := shutdown_spec c dl hb hs
  have hc : (c.Shutdown dl).1 = { c with shutdown := true } := by rw [h1]
  refine ⟨hc, ?_, ?_, ?_⟩
  · intro t w; rw [hc]; exact resolve_ignores_shutdown c true t w
  · intro nm t w; rw [hc]; exact resolveNamed_ignores_shutdown c true nm t w
  · intro t v hv w
    rw [hc, resolve_ignores_shutdown c true t w, Container.Resolve, hb]
    simp [hv]

theorem C10_shutdown_frame_witness :
    frameW.built = true ∧ frameW.shutdown = false ∧
    (frameW.Shutdown none).1.Resolve 4 World.init = (World.init, .ok ⟨7, []⟩) :=
  ⟨rfl, rfl,
    (C10_shutdown_frame frameW none rfl rfl).2.2.2 4 ⟨7, []⟩ rfl World.init⟩

/-!  Claim C5: named providers always construct fresh instances. -/
/-- C5: for a named provider of a built container whose declared inputs
are all in the singleton cache and whose constructor succeeds, every
ResolveNamed call invokes the named constructor anew (the trace grows by
one invocation) and returns a freshly allocated instance whose arguments
are the cached singleton instances; hence two consecutive calls return
distinct instances with identical singleton dependencies.  No hypothesis
constrains the declared lifetime, so this holds for named providers
declared Singleton in particular. -/
theorem C5_resolveNamed_fresh (c : Container) (nm : String) (t : Ty) (p : Provider)
    (hb : c.built = true) (hp : c.named.lookup nm = some p) (ht : p.outType = t)
    (hdeps : ∀ d ∈ p.deps, (c.singletons d).isSome) (hc : p.cerr = none) :
    (∀ w, c.ResolveNamed nm t w =
      (⟨w.fresh + 1, w.trace ++ [(p.name, p.outType)]⟩,
       .ok ⟨w.fresh, p.deps.map (fun d => ((c.singletons d).getD ⟨0, []⟩).vid)⟩)) ∧
    (∀ w, ∃ v1 v2 : Value,
      (c.ResolveNamed nm t w).2 = .ok v1 ∧
      (c.ResolveNamed nm t (c.ResolveNamed nm t w).1).2 = .ok v2 ∧
      v1.vid ≠ v2.vid ∧ v1.argIds = v2.argIds) := by
  have hone : ∀ w : World, c.ResolveNamed nm t w =
      (⟨w.fresh + 1, w.trace ++ [(p.name, p.outType)]⟩,
       .ok ⟨w.fresh, p.deps.map (fun d => ((c.singletons d).getD ⟨0, []⟩).vid)⟩) := by
    intro w
    rw [Container.ResolveNamed, hb]
    simp only [Bool.true_eq_false, if_false, hp]
    rw [if_neg (by simp [ht])]
    exact construct_cached c.providers c.singletons p w (c.providers.length + 1) (Nat.succ_pos _) hdeps hc
  refine ⟨hone, ?_⟩
  intro w
  refine ⟨⟨w.fresh, p.deps.map (fun d => ((c.singletons d).getD ⟨0, []⟩).vid)⟩,
          ⟨w.fresh + 1, p.deps.map (fun d => ((c.singletons d).getD ⟨0, []⟩).vid)⟩,
          ?_, ?_, ?_, rfl⟩
  · rw [hone w]
  · rw [hone w, hone ⟨w.fresh + 1, w.trace ++ [(p.name, p.outType)]⟩]
  · exact Nat.ne_of_lt (Nat.lt_succ_self _)

theorem C5_resolveNamed_fresh_witness :
    namedW.built = true ∧
    (∃ v1 v2 : Value,
      (namedW.ResolveNamed "n" 9 World.init).2 = .ok v1 ∧
      (namedW.ResolveNamed "n" 9 (namedW.ResolveNamed "n" 9 World.init).1).2 = .ok v2 ∧
      v1.vid ≠ v2.vid ∧ v1.argIds = v2.argIds) :=
  ⟨rfl,
    (C5_resolveNamed_fresh namedW "n" 9 ⟨[4], .Singleton, "n", 9, none, false, none⟩
      rfl rfl rfl (by decide) rfl).2 World.init⟩

/-- C1 counterexample: this registration set is acyclic and every declared
input of every unnamed provider has an unnamed provider, yet Build returns
an error (the constructor of the singleton fails), so the claim as frozen
is false. -/
theorem C1_counterexample :
    Acyclic c1cex.providers ∧
    (∀ pr ∈ c1cex.providers, ∀ d ∈ pr.2.deps, (c1cex.providers.lookup d).isSome) ∧
    (c1cex.Build World.init).2.2 = some (.constructing 0 (.userError 7)) := by
  refine ⟨ranked_acyclic c1cex.providers (fun _ => 0) ?_, by decide, ?_⟩
  case refine_2 =>
    simp [c1cex, Container.new, Container.Build, buildAll, buildResolve, buildDeps,
          validateNamed, construct, constructDeps, List.lookup]
  intro a b hab
  obtain ⟨p, hl, hd⟩ := hab
  have hm := lookup_mem hl
  simp [c1cex, Container.new] at hm
  obtain ⟨_, hp⟩ := hm
  subst hp
  simp at hd

/-- C2 counterexample: the dependency graph of this registration set
contains a cycle (type 1 depends on itself), yet Build fails with
ProviderNotFound for type 5 — an error that does not match
ErrCircularDependency — because the missing dependency of the provider for
type 0 is discovered first.  The claim as frozen is therefore false. -/
theorem C2_counterexample :
    IsDepCycle c2cex.providers [1] ∧
    (c2cex.Build World.init).2.2 = some (.providerNotFound 5) ∧
    matchesCircular (.providerNotFound 5) = false := by
  refine ⟨⟨by simp, trivial, ?_⟩, ?_, rfl⟩
  · exact ⟨⟨[1], .Singleton, "", 1, none, false, none⟩, by simp [c2cex, Container.new, List.lookup], by simp⟩
  · simp [c2cex, Container.new, Container.Build, buildAll, buildResolve, buildDeps,
          validateNamed, construct, constructDeps, List.lookup]

/-- C3 counterexample: after a successful Build, Resolve of type 0 invokes
the failing constructor and returns its error verbatim, with no
type-identity wrapped around it at all — in particular the requested type
0 is absent — so the claim as frozen (the error wraps the failing
type-identity, and for Resolve the requested type itself) is false. -/
theorem C3_counterexample :
    (c3cex.Build World.init).2.2 = none ∧
    ((c3cex.Build World.init).1.Resolve 0 World.init).2 = .error (.userError 9) ∧
    wrapTypes (.userError 9) = [] := by
  refine ⟨?_, ?_, rfl⟩
  · simp [c3cex, Container.new, Container.Build, buildAll, buildResolve, buildDeps,
          validateNamed, List.lookup]
  · simp [c3cex, Container.new, Container.Build, buildAll, buildResolve, buildDeps,
          validateNamed, Container.Resolve, construct, constructDeps, List.lookup]

end Oak
